import Mathlib

/- Shallow embedding of the planner CLI task tracker (src/main.rs).

   Timestamps (chrono DateTime of type Local) are modelled as integers
   carrying the same linear order; only comparisons on them matter to the
   algorithms.  The JSON store round-trips structurally, so each command is
   modelled as a pure function from the in-memory task list to a result
   describing what would be persisted.  Loops of the source that have no
   structural termination argument (the tree-builder queue loop, the
   recursive interval propagation through the index-based child test, the
   root walk in the add command, the free-id scan) take an explicit fuel
   parameter and return an optional result; running out of fuel returns
   none. -/

namespace Planner

structure Task where
  name : String
  points : Nat
  id : Nat
  complete : Bool
  due_date : Option Int
  start_time : Option Int
  parent : Option Nat
  resources : List String
deriving Repr, DecidableEq

structure TaskList where
  tasks : List Task
deriving Repr, DecidableEq

/-- Test mirroring the body of the loop of get_all_children_of_task:
a task contributes when its parent field is Some x with x equal to the
requested parent value. -/
def isChildOf (parent : Nat) (t : Task) : Bool :=
  match t.parent with
  | some x => x == parent
  | none => false

/-- Source function get_all_children_of_task: collects, in order, every task
whose parent field equals the given value. -/
def get_all_children_of_task (tasklist : TaskList) (parent : Nat) : List Task :=
  tasklist.tasks.filter (isChildOf parent)

/-- Index of the first task with the given id, mirroring the scan in
task_has_children. -/
def taskIndexOf : List Task → Nat → Nat → Option Nat
  | [], _, _ => none
  | t :: ts, id, i => if t.id == id then some i else taskIndexOf ts id (i + 1)

/-- Source function task_has_children: finds the position i of the task with
the given id and then, exactly as the source does, asks for the children of
the POSITION i rather than of the id (the source passes the loop index i to
get_all_children_of_task). -/
def task_has_children (tasklist : TaskList) (id : Nat) : Bool :=
  match taskIndexOf tasklist.tasks id 0 with
  | some i => !(get_all_children_of_task tasklist i).isEmpty
  | none => false

/-- Accumulator update for the running minimum of start times, mirroring
the source: replace when no value is held yet or the new one is smaller. -/
def combineMin (cur : Option Int) (d : Option Int) : Option Int :=
  match d with
  | none => cur
  | some x =>
    match cur with
    | none => some x
    | some y => if x < y then some x else some y

/-- Accumulator update for the running maximum of due dates. -/
def combineMax (cur : Option Int) (d : Option Int) : Option Int :=
  match d with
  | none => cur
  | some x =>
    match cur with
    | none => some x
    | some y => if x > y then some x else some y

/-- Write the given start and end dates onto every task whose id matches,
mirroring the write-back loops of fit_task_size_to_children. -/
def writeDates (tl : TaskList) (id : Nat) (st en : Option Int) : TaskList :=
  ⟨tl.tasks.map (fun t =>
    if t.id == id then { t with start_time := st, due_date := en } else t)⟩

/-- The child-processing loop of fit_task_size_to_children, parametrised by
the recursive call (instantiated with one unit of fuel consumed).  The list
argument is the snapshot of children taken at entry, as in the source, and
the two accumulators are the running minimum start and maximum end. -/
def fitChildrenGo (fitF : TaskList → Nat → Option (TaskList × Option Int × Option Int)) :
    TaskList → List Task → Option Int → Option Int →
    Option (TaskList × Option Int × Option Int)
  | tl, [], st, en => some (tl, st, en)
  | tl, c :: cs, st, en =>
    if task_has_children tl c.id then
      match fitF tl c.id with
      | none => none
      | some (tl1, s, e) =>
        fitChildrenGo fitF (writeDates tl1 c.id s e) cs (combineMin st s) (combineMax en e)
    else
      fitChildrenGo fitF tl cs (combineMin st c.start_time) (combineMax en c.due_date)

/-- Source function fit_task_size_to_children, with fuel bounding the
recursion depth.  It fetches the children of the given id, recurses into
each child that the (index-based) task_has_children test reports as having
children, writing the recursive result back onto that child, folds the
minimum start and maximum end over the effective child dates, and finally
writes the folded pair onto every task with the given id. -/
def fit_task_size_to_children : Nat → TaskList → Nat →
    Option (TaskList × Option Int × Option Int)
  | 0, _, _ => none
  | fuel + 1, tl, id =>
    match fitChildrenGo (fun tl2 id2 => fit_task_size_to_children fuel tl2 id2)
        tl (get_all_children_of_task tl id) none none with
    | none => none
    | some (tl1, st, en) => some (writeDates tl1 id st en, st, en)

/-- The child loop with the recursion depth made explicit. -/
def fitChildren (fuel : Nat) : TaskList → List Task → Option Int → Option Int →
    Option (TaskList × Option Int × Option Int) :=
  fitChildrenGo (fun tl2 id2 => fit_task_size_to_children fuel tl2 id2)

/- The tree builder. -/

structure TaskTreeNode where
  task : Option Nat
  children : List Nat
deriving Repr, DecidableEq

/-- First position in the node list whose task reference equals the given
parent reference, mirroring the search loop of generate_task_tree. -/
def findParentIdxGo : List TaskTreeNode → Option Nat → Nat → Option Nat
  | [], _, _ => none
  | nd :: rest, p, i => if nd.task == p then some i else findParentIdxGo rest p (i + 1)

def findParentIdx (tree : List TaskTreeNode) (p : Option Nat) : Option Nat :=
  findParentIdxGo tree p 0

/-- Replace the element at a position by the image under f, leaving the list
unchanged when the position is out of range. -/
def modifyIdx : List TaskTreeNode → Nat → (TaskTreeNode → TaskTreeNode) → List TaskTreeNode
  | [], _, _ => []
  | x :: xs, 0, f => f x :: xs
  | x :: xs, k + 1, f => x :: modifyIdx xs k f

/-- One successful placement: push the index of the about-to-be-appended
node onto the children of the matched node, then append the new node, as in
the source. -/
def placeNode (tree : List TaskTreeNode) (i : Nat) (tid : Nat) : List TaskTreeNode :=
  modifyIdx tree i (fun nd => { nd with children := nd.children ++ [tree.length] }) ++
    [{ task := some tid, children := [] }]

/-- The queue loop of generate_task_tree.  The queue is represented with its
pop end first: the source pops from the back of its vector and re-inserts
failures at the front, which here is taking the head and appending to the
tail.  The queue holds positions into the task list; an out-of-range
position (impossible from the initial queue) and fuel exhaustion both give
none. -/
def genGo : Nat → TaskList → List TaskTreeNode → List Nat → Option (List TaskTreeNode)
  | _, _, tree, [] => some tree
  | 0, _, _, _ :: _ => none
  | fuel + 1, tl, tree, t :: rest =>
    match tl.tasks.get? t with
    | none => none
    | some task =>
      match findParentIdx tree task.parent with
      | some i => genGo fuel tl (placeNode tree i task.id) rest
      | none => genGo fuel tl tree (rest ++ [t])

/-- Source function generate_task_tree: start from the synthetic root node
and the queue of all task positions (back of the source vector popped
first), and run the placement loop with the given fuel. -/
def generate_task_tree (fuel : Nat) (tl : TaskList) : Option (List TaskTreeNode) :=
  genGo fuel tl [{ task := none, children := [] }] (List.range tl.tasks.length).reverse

/- The add command pieces that the claims mention. -/

/-- Membership test of an id, mirroring the inner scan of the id-assignment
loop in the add command. -/
def idExists (tl : TaskList) (id : Nat) : Bool :=
  tl.tasks.any (fun t => t.id == id)

/-- The id-assignment loop of the add command: starting from the given
candidate, count up until an unused id is found. -/
def nextIdGo : Nat → TaskList → Nat → Option Nat
  | 0, _, _ => none
  | fuel + 1, tl, id => if idExists tl id then nextIdGo fuel tl (id + 1) else some id

/-- Id assigned to a newly added task: the scan starting at zero; fuel one
more than the number of tasks always suffices. -/
def next_available_id (tl : TaskList) : Option Nat :=
  nextIdGo (tl.tasks.length + 1) tl 0

/-- Outcome of the root walk the add command performs before refitting. -/
inductive WalkResult where
  | root (r : Nat)
  | panic
  | fuelOut
deriving Repr, DecidableEq

/-- The ancestry walk of the add command.  The source keeps a variable
actual_id, initly the parent id of the new task, and repeatedly reads
task_list.tasks[actual_id] - indexing the vector BY THE ID VALUE - until the
task found there has no parent.  An index out of range is the source's
panic. -/
def find_root_walk : Nat → TaskList → Nat → WalkResult
  | 0, _, _ => .fuelOut
  | fuel + 1, tl, i =>
    match tl.tasks.get? i with
    | none => .panic
    | some t =>
      match t.parent with
      | none => .root i
      | some p => find_root_walk fuel tl p

/- The check command. -/

inductive CheckResult where
  | rejected
  | notFound
  | checked (tl : TaskList)
deriving Repr, DecidableEq

/-- The completion loop of the check command: record the name of the first
task with the given id and flip its complete flag; an empty name afterwards
is what the source treats as task-not-found. -/
def setCompleteFirst : List Task → Nat → String × List Task
  | [], _ => ("", [])
  | t :: ts, id =>
    if t.id == id then (t.name, { t with complete := true } :: ts)
    else
      let r := setCompleteFirst ts id
      (r.1, t :: r.2)

/-- Source check command as a function of the loaded store: gate on the
direct children all being complete, then flip the flag of the first task
with the id; the store is persisted only in the checked case. -/
def checkCmd (tl : TaskList) (id : Nat) : CheckResult :=
  let children := get_all_children_of_task tl id
  if children.all (fun c => c.complete) then
    let r := setCompleteFirst tl.tasks id
    if r.1 == "" then .notFound else .checked ⟨r.2⟩
  else .rejected

/- The remove command. -/

inductive RmResult where
  | notFound
  | removed (tl : TaskList)
deriving Repr, DecidableEq

/-- Clear the parent reference of a task when it points at the given id,
mirroring the first loop of the remove command. -/
def clearParentOf (id : Nat) (t : Task) : Task :=
  match t.parent with
  | some x => if x == id then { t with parent := none } else t
  | none => t

/-- Remove the first task with the given id, returning its name ("" when
none matches) and the remaining list, mirroring the second loop of the
remove command. -/
def removeFirstById : List Task → Nat → String × List Task
  | [], _ => ("", [])
  | t :: ts, id =>
    if t.id == id then (t.name, ts)
    else
      let r := removeFirstById ts id
      (r.1, t :: r.2)

/-- Source remove command as a function of the loaded store: orphan the
direct children, then delete the first task with the id; an empty recorded
name is the source's task-not-found, in which case nothing is persisted. -/
def rmCmd (tl : TaskList) (id : Nat) : RmResult :=
  let ts1 := tl.tasks.map (clearParentOf id)
  let r := removeFirstById ts1 id
  if r.1 == "" then .notFound else .removed ⟨r.2⟩

/- Hypothesis vocabulary for the claims: an acyclic, fully resolvable
parent relation. -/

/-- Bounded resolvability of a task inside a collection: within the given
number of steps its parent chain reaches a task with no parent.  A
collection has an acyclic, fully resolvable parent relation exactly when
every task is resolvable within as many steps as there are tasks. -/
def resolvableB : Nat → TaskList → Task → Bool
  | 0, _, _ => false
  | fuel + 1, tl, t =>
    match t.parent with
    | none => true
    | some p => tl.tasks.any (fun u => u.id == p && resolvableB fuel tl u)

/-- The parent relation of the collection is acyclic and every parent id
resolves, directly or transitively, to a root. -/
def AllResolvable (tl : TaskList) : Prop :=
  ∀ t ∈ tl.tasks, resolvableB tl.tasks.length tl t = true

instance : DecidablePred AllResolvable := fun tl =>
  inferInstanceAs (Decidable (∀ t ∈ tl.tasks, resolvableB tl.tasks.length tl t = true))

/-- All ids of the collection are pairwise distinct (data-model invariant of
the spec). -/
def NodupIds (tl : TaskList) : Prop :=
  (tl.tasks.map (fun t => t.id)).Nodup

instance : DecidablePred NodupIds := fun tl => by
  unfold NodupIds
  infer_instance

/-- Default task used with getD in positional statements. -/
def dTask : Task :=
  { name := "", points := 0, id := 0, complete := false,
    due_date := none, start_time := none, parent := none, resources := [] }

/-- Erase the two date fields of a task.  Two collections whose erased
images agree position by position share everything the child and index
queries of the source read: ids, parent links and order. -/
def skel (t : Task) : Task := { t with start_time := none, due_date := none }

/- Concrete collections used as failing inputs and witnesses.  Ids that
differ from list positions are reachable states: removing tasks shifts
positions while ids stay, and freed ids are reassigned from the bottom. -/

/-- Builder for concrete test tasks. -/
def exTask (id : Nat) (parent : Option Nat) (st en : Option Int) (c : Bool) : Task :=
  { name := "t", points := 0, id := id, complete := c,
    due_date := en, start_time := st, parent := parent, resources := [] }

/-- Failing input for the interval propagator: a three-level chain
5 - 6 - 7 where only the leaf 7 carries dates, stored so that ids differ
from positions. -/
def exC1 : TaskList :=
  ⟨[exTask 5 none none none false, exTask 6 (some 5) none none false,
    exTask 7 (some 6) (some 10) (some 20) false]⟩

/-- Failing input for the add-command root walk: a store holding the single
root task id 2 to which a child (assigned the free id 0) was just appended
with parent id 2. -/
def exC2 : TaskList :=
  ⟨[exTask 2 none none none false, exTask 0 (some 2) none none false]⟩

/-- An incomplete task whose parent id 5 dangles (its parent was removed). -/
def exC7 : TaskList := ⟨[exTask 0 (some 5) none none false]⟩

/-- A task with a complete child and an absent id 5 referenced nowhere
incomplete. -/
def exW7 : TaskList := ⟨[exTask 0 (some 5) none none true]⟩

/-- Root 0 with one complete child 1. -/
def exW5 : TaskList :=
  ⟨[exTask 0 none none none false, exTask 1 (some 0) none none true]⟩

/-- Chain 0 - 1 - 2 used for the removal frame witness. -/
def exW8 : TaskList :=
  ⟨[exTask 0 none none none false, exTask 1 (some 0) none none false,
    exTask 2 (some 1) none none false]⟩

/-- A single childless task carrying dates. -/
def exC6a : TaskList := ⟨[exTask 0 none (some 5) (some 7) false]⟩

/-- Root 1 with children 2 and 3; task 2 is childless but carries dates,
and the index-based child test misreads position 1 as its children. -/
def exC6b : TaskList :=
  ⟨[exTask 1 none none none false, exTask 2 (some 1) (some 5) (some 6) false,
    exTask 3 (some 1) none none false]⟩

/-- Root 0 with the single dated leaf 1. -/
def exW6 : TaskList :=
  ⟨[exTask 0 none none none false, exTask 1 (some 0) (some 2) (some 3) false]⟩

/-- Result of fitting exW6 from root 0. -/
def exW6r : TaskList :=
  ⟨[exTask 0 none (some 2) (some 3) false, exTask 1 (some 0) (some 2) (some 3) false]⟩

/-- Default tree node used with getD in positional statements. -/
def dNode : TaskTreeNode := { task := none, children := [] }

/-- Fuel sufficient for the tree-builder loop on an acyclic, fully
resolvable collection: with a queue of length q at most q iterations pass
before some task is placed, and a placement shortens the queue by one. -/
def fuelFor : Nat → Nat
  | 0 => 0
  | q + 1 => (q + 1) + fuelFor q

/-- Loop invariant of the tree builder, relating the node list, the pending
queue of task positions and the ghost list of already placed positions (in
placement order): the queue and the placed positions partition the
positions; the nodes after the synthetic root carry, in order, the ids of
the placed tasks; every child index is the position of a node whose task's
parent field equals the task reference of the node holding it; and the
child lists hold every node position except the root exactly once. -/
def GenInv (tl : TaskList) (tree : List TaskTreeNode) (queue placed : List Nat) : Prop :=
  (queue ++ placed).Perm (List.range tl.tasks.length) ∧
  tree.map (fun nd => nd.task) =
    none :: placed.map (fun a => some ((tl.tasks.getD a dTask).id)) ∧
  (∀ k, k < tree.length → ∀ c ∈ (tree.getD k dNode).children,
    1 ≤ c ∧ c < tree.length ∧
    (tl.tasks.getD (placed.getD (c - 1) 0) dTask).parent = (tree.getD k dNode).task) ∧
  ((tree.map (fun nd => nd.children)).flatten).Perm
    ((List.range (tree.length - 1)).map (fun x => x + 1))

/-- Two mutually referring tasks: a parent cycle. -/
def exCyc : TaskList :=
  ⟨[exTask 0 (some 1) none none false, exTask 1 (some 0) none none false]⟩

/-- Strict ancestry by id: following parent links upward from the task
eventually passes a link carrying the id a. -/
inductive Anc (tl : TaskList) : Nat → Task → Prop where
  | step : ∀ {t : Task} {a : Nat}, t.parent = some a → Anc tl a t
  | trans : ∀ {t u : Task} {p a : Nat}, t.parent = some p → u ∈ tl.tasks → u.id = p →
      Anc tl a u → Anc tl a t

/-- Region of an id: carrying the id itself, or lying strictly below it in
the parent hierarchy.  The interval propagator invoked on an id reads and
writes only tasks whose region this is. -/
def Region (tl : TaskList) (rid : Nat) (t : Task) : Prop :=
  t.id = rid ∨ Anc tl rid t

/- Theorems. -/

theorem fit_succ (fuel : Nat) (tl : TaskList) (id : Nat) :
    fit_task_size_to_children (fuel + 1) tl id =
      match fitChildren fuel tl (get_all_children_of_task tl id) none none with
      | none => none
      | some (tl1, st, en) => some (writeDates tl1 id st en, st, en) := rfl

/- Claim C10: smallest free id. -/

theorem idExists_iff (tl : TaskList) (k : Nat) :
    idExists tl k = true ↔ ∃ t ∈ tl.tasks, t.id = k := by
  simp [idExists, List.any_eq_true]

theorem exists_free_id (tl : TaskList) :
    ∃ k, k ≤ tl.tasks.length ∧ idExists tl k = false := by
  by_contra h
  push_neg at h
  have hall : ∀ k, k ≤ tl.tasks.length → idExists tl k = true := by
    intro k hk
    have := h k hk
    revert this
    cases idExists tl k <;> simp
  have hsub : Finset.range (tl.tasks.length + 1) ⊆
      (tl.tasks.map (fun t => t.id)).toFinset := by
    intro k hk
    rw [Finset.mem_range, Nat.lt_succ_iff] at hk
    have hex := (idExists_iff tl k).mp (hall k hk)
    obtain ⟨t, ht, hid⟩ := hex
    rw [List.mem_toFinset, List.mem_map]
    exact ⟨t, ht, hid⟩
  have h1 : tl.tasks.length + 1 ≤ (tl.tasks.map (fun t => t.id)).toFinset.card := by
    have := Finset.card_le_card hsub
    simpa using this
  have h2 : (tl.tasks.map (fun t => t.id)).toFinset.card ≤ tl.tasks.length := by
    have := (tl.tasks.map (fun t => t.id)).toFinset_card_le
    simpa using this
  omega

theorem nextIdGo_spec (tl : TaskList) :
    ∀ fuel start, (∃ k, k < start + fuel ∧ start ≤ k ∧ idExists tl k = false) →
      ∃ m, nextIdGo fuel tl start = some m ∧ start ≤ m ∧ idExists tl m = false ∧
        ∀ j, start ≤ j → j < m → idExists tl j = true := by
  intro fuel
  induction fuel with
  | zero =>
    intro start h
    obtain ⟨k, hk, _, _⟩ := h
    omega
  | succ fuel ih =>
    intro start h
    obtain ⟨k, hk1, hk2, hk3⟩ := h
    by_cases hs : idExists tl start = true
    · have hks : k ≠ start := by
        intro hksq
        rw [hksq] at hk3
        rw [hs] at hk3
        simp at hk3
      obtain ⟨m, hm1, hm2, hm3, hm4⟩ := ih (start + 1) ⟨k, by omega, by omega, hk3⟩
      refine ⟨m, ?_, by omega, hm3, ?_⟩
      · simpa [nextIdGo, hs] using hm1
      · intro j hj1 hj2
        rcases Nat.eq_or_lt_of_le hj1 with hj | hj
        · rw [← hj]
          exact hs
        · exact hm4 j hj hj2
    · refine ⟨start, ?_, Nat.le_refl _, by simpa using hs, by omega⟩
      simp [nextIdGo, hs]

/-- C10: for every collection, the id assigned to a newly added task is the
smallest non-negative integer not already used as an id in the collection;
the scan always yields an answer. -/
theorem next_id_smallest_unused_C10 (tl : TaskList) :
    ∃ m, next_available_id tl = some m ∧ idExists tl m = false ∧
      ∀ j, j < m → idExists tl j = true := by
  obtain ⟨k, hk1, hk2⟩ := exists_free_id tl
  obtain ⟨m, hm1, _, hm3, hm4⟩ :=
    nextIdGo_spec tl (tl.tasks.length + 1) 0 ⟨k, by omega, by omega, hk2⟩
  exact ⟨m, hm1, hm3, fun j hj => hm4 j (Nat.zero_le _) hj⟩

/-- C10 example from the spec: ids 0, 1, 3 yield the next id 2. -/
theorem next_id_smallest_unused_C10_example :
    next_available_id ⟨[exTask 0 none none none false, exTask 1 none none none false,
      exTask 3 none none none false]⟩ = some 2 := by decide

/- Claim C1: the interval propagator misses descendants when ids differ
from positions (the source passes a position to get_all_children_of_task
inside task_has_children). -/

/-- C1: evaluation at the failing input.  Running the propagator on root 5
of the chain 5 - 6 - 7 returns the collection UNCHANGED with an absent
window: task 6 has child 7, yet its window is not recomputed, and the
ancestors end with absent dates although descendant leaf 7 carries start 10
and due 20.  The claimed minimum/maximum over descendants (start 10, due 20)
is never written. -/
theorem fit_misses_descendants_C1 :
    fit_task_size_to_children 9 exC1 5 = some (exC1, none, none) ∧
      task_has_children exC1 6 = false ∧
      (get_all_children_of_task exC1 6).length = 1 := by decide

/- Claim C2: the root walk of the add command indexes the task vector by id
value. -/

/-- C2: evaluation at the failing input.  Walking up from parent id 2 in a
two-element store reads tasks[2], which is out of bounds: the source
panics instead of reaching the root and refitting. -/
theorem add_root_walk_panics_C2 :
    find_root_walk 5 exC2 2 = WalkResult.panic ∧
      exC2.tasks.all (fun t => decide (t.parent = none ∨ t.parent = some 2)) = true := by
  decide

/- Claim C7: checking an absent id. -/

/-- C7 counterexample: id 5 is present nowhere in the store, yet the check
command is rejected with a failure exit (the completion gate runs before the
existence check and sees the dangling incomplete child), instead of
printing task-not-found and returning success. -/
theorem check_absent_rejected_C7_counterexample :
    exC7.tasks.all (fun t => t.id != 5) = true ∧
      checkCmd exC7 5 = CheckResult.rejected := by decide

theorem setCompleteFirst_no_match (ts : List Task) (id : Nat)
    (h : ∀ t ∈ ts, t.id ≠ id) : setCompleteFirst ts id = ("", ts) := by
  induction ts with
  | nil => rfl
  | cons t rest ih =>
    have ht : t.id ≠ id := h t (by simp)
    have hrest := ih (fun u hu => h u (by simp [hu]))
    simp [setCompleteFirst, ht, hrest]

/-- C7 amended: for every collection and every task id that is present
nowhere in it, IF every task referencing it as parent is complete, the
check command reports task-not-found, returns success and leaves the
persisted store unchanged; when some task referencing the absent id is
incomplete the command is instead rejected with a failure exit. -/
theorem check_absent_notFound_C7 (tl : TaskList) (id : Nat)
    (habs : ∀ t ∈ tl.tasks, t.id ≠ id) :
    ((∀ c ∈ get_all_children_of_task tl id, c.complete = true) →
      checkCmd tl id = CheckResult.notFound) ∧
    (¬ (∀ c ∈ get_all_children_of_task tl id, c.complete = true) →
      checkCmd tl id = CheckResult.rejected) := by
  constructor
  · intro hc
    have hall : (get_all_children_of_task tl id).all (fun c => c.complete) = true := by
      rw [List.all_eq_true]
      exact hc
    have hset := setCompleteFirst_no_match tl.tasks id habs
    simp [checkCmd, hall, hset]
  · intro hc
    have hall : (get_all_children_of_task tl id).all (fun c => c.complete) = false := by
      rcases h : (get_all_children_of_task tl id).all (fun c => c.complete) with _ | _
      · rfl
      · exact absurd (List.all_eq_true.mp h) hc
    simp [checkCmd, hall]

/-- C7 amended witness at a concrete input: id 5 is absent and its only
dangling referent is complete, so the command reports task-not-found. -/
theorem check_absent_notFound_C7_witness :
    (∀ t ∈ exW7.tasks, t.id ≠ 5) ∧ checkCmd exW7 5 = CheckResult.notFound := by
  refine ⟨by decide, ?_⟩
  exact (check_absent_notFound_C7 exW7 5 (by decide)).1 (by decide)

/- Claim C5: the completion gate. -/

theorem map_setComplete_no_match (id : Nat) (ts : List Task)
    (h : ∀ u ∈ ts, u.id ≠ id) :
    ts.map (fun t => if t.id = id then { t with complete := true } else t) = ts := by
  induction ts with
  | nil => rfl
  | cons t rest ih =>
    have ht : t.id ≠ id := h t (by simp)
    simp [ht, ih (fun u hu => h u (by simp [hu]))]

theorem setCompleteFirst_found (ts : List Task) (id : Nat)
    (hnod : (ts.map (fun t => t.id)).Nodup)
    (hmem : ∃ t ∈ ts, t.id = id) :
    ∃ t1, t1 ∈ ts ∧ t1.id = id ∧
      setCompleteFirst ts id =
        (t1.name, ts.map (fun t => if t.id = id then { t with complete := true } else t)) := by
  induction ts with
  | nil => simp at hmem
  | cons t rest ih =>
    rw [List.map_cons, List.nodup_cons] at hnod
    by_cases ht : t.id = id
    · refine ⟨t, by simp, ht, ?_⟩
      have hrest : ∀ u ∈ rest, u.id ≠ id := by
        intro u hu hueq
        apply hnod.1
        rw [ht, ← hueq]
        exact List.mem_map_of_mem _ hu
      have hmap := map_setComplete_no_match id rest hrest
      simp [setCompleteFirst, ht, hmap]
    · have hmem' : ∃ u ∈ rest, u.id = id := by
        obtain ⟨u, hu, hueq⟩ := hmem
        rw [List.mem_cons] at hu
        rcases hu with hu | hu
        · exact absurd (hu ▸ hueq) ht
        · exact ⟨u, hu, hueq⟩
      obtain ⟨t1, ht1, ht1id, hset⟩ := ih hnod.2 hmem'
      refine ⟨t1, by simp [ht1], ht1id, ?_⟩
      simp [setCompleteFirst, ht, hset]

/-- C5: with the data-model invariants (pairwise distinct ids, non-empty
names), for every task id present in the collection the check command is
rejected with a failure exit - persisting nothing - exactly when some
direct child is incomplete, and when every direct child is complete it
succeeds and persists the store in which that task alone has its complete
flag set to true and every other task is unchanged. -/
theorem check_gate_C5 (tl : TaskList) (id : Nat)
    (hnod : NodupIds tl) (hname : ∀ t ∈ tl.tasks, t.name ≠ "")
    (hmem : ∃ t ∈ tl.tasks, t.id = id) :
    (checkCmd tl id = CheckResult.rejected ↔
      ¬ ∀ c ∈ get_all_children_of_task tl id, c.complete = true) ∧
    ((∀ c ∈ get_all_children_of_task tl id, c.complete = true) →
      checkCmd tl id = CheckResult.checked
        ⟨tl.tasks.map (fun t => if t.id = id then { t with complete := true } else t)⟩) := by
  obtain ⟨t1, ht1, ht1id, hset⟩ := setCompleteFirst_found tl.tasks id hnod hmem
  have hname1 : t1.name ≠ "" := hname t1 ht1
  have hchecked : (∀ c ∈ get_all_children_of_task tl id, c.complete = true) →
      checkCmd tl id = CheckResult.checked
        ⟨tl.tasks.map (fun t => if t.id = id then { t with complete := true } else t)⟩ := by
    intro hall
    have hb : (get_all_children_of_task tl id).all (fun c => c.complete) = true :=
      List.all_eq_true.mpr hall
    simp [checkCmd, hb, hset, hname1]
  refine ⟨⟨?_, ?_⟩, hchecked⟩
  · intro hrej hall
    rw [hchecked hall] at hrej
    exact CheckResult.noConfusion hrej
  · intro hnall
    have hb : (get_all_children_of_task tl id).all (fun c => c.complete) = false := by
      rcases h : (get_all_children_of_task tl id).all (fun c => c.complete) with _ | _
      · rfl
      · exact absurd (List.all_eq_true.mp h) hnall
    simp [checkCmd, hb]

/-- C5 witness: checking root 0 of a store whose only child of 0 is
complete succeeds and persists the flag on task 0. -/
theorem check_gate_C5_witness :
    NodupIds exW5 ∧ (∀ c ∈ get_all_children_of_task exW5 0, c.complete = true) ∧
      checkCmd exW5 0 = CheckResult.checked
        ⟨[exTask 0 none none none true, exTask 1 (some 0) none none true]⟩ := by
  refine ⟨by decide, by decide, ?_⟩
  have h := (check_gate_C5 exW5 0 (by decide) (by decide) ⟨exTask 0 none none none false,
    by decide, by decide⟩).2 (by decide)
  rw [h]
  decide

/- Claim C8: the remove command. -/

theorem filterMap_keep_no_match (id : Nat) (ts : List Task)
    (h : ∀ u ∈ ts, u.id ≠ id) :
    ts.filterMap (fun t => if t.id = id then none else some t) = ts := by
  induction ts with
  | nil => rfl
  | cons t rest ih =>
    have ht : t.id ≠ id := h t (by simp)
    simp [List.filterMap_cons, ht, ih (fun u hu => h u (by simp [hu]))]

theorem removeFirstById_found (ts : List Task) (id : Nat)
    (hnod : (ts.map (fun t => t.id)).Nodup)
    (hmem : ∃ t ∈ ts, t.id = id) :
    ∃ t1, t1 ∈ ts ∧ t1.id = id ∧
      removeFirstById ts id =
        (t1.name, ts.filterMap (fun t => if t.id = id then none else some t)) := by
  induction ts with
  | nil => simp at hmem
  | cons t rest ih =>
    rw [List.map_cons, List.nodup_cons] at hnod
    by_cases ht : t.id = id
    · refine ⟨t, by simp, ht, ?_⟩
      have hrest : ∀ u ∈ rest, u.id ≠ id := by
        intro u hu hueq
        apply hnod.1
        rw [ht, ← hueq]
        exact List.mem_map_of_mem _ hu
      have hmap := filterMap_keep_no_match id rest hrest
      simp [removeFirstById, List.filterMap_cons, ht, hmap]
    · have hmem' : ∃ u ∈ rest, u.id = id := by
        obtain ⟨u, hu, hueq⟩ := hmem
        rw [List.mem_cons] at hu
        rcases hu with hu | hu
        · exact absurd (hu ▸ hueq) ht
        · exact ⟨u, hu, hueq⟩
      obtain ⟨t1, ht1, ht1id, hset⟩ := ih hnod.2 hmem'
      refine ⟨t1, by simp [ht1], ht1id, ?_⟩
      simp [removeFirstById, List.filterMap_cons, ht, hset]

theorem clearParentOf_id (id : Nat) (t : Task) : (clearParentOf id t).id = t.id := by
  unfold clearParentOf
  split
  · split
    · rfl
    · rfl
  · rfl

theorem clearParentOf_name (id : Nat) (t : Task) : (clearParentOf id t).name = t.name := by
  unfold clearParentOf
  split
  · split
    · rfl
    · rfl
  · rfl

/-- C8: with pairwise distinct ids, removing a task that is present (and,
per the data model, has a non-empty name) deletes exactly that task and
sets parent to none on every direct child of it, while leaving every other
task - its parent link, name, points, completion flag, dates and resources
- unchanged; grandchildren are neither removed nor reparented. -/
theorem rm_frame_C8 (tl : TaskList) (id : Nat)
    (hnod : NodupIds tl)
    (hmem : ∃ t ∈ tl.tasks, t.id = id ∧ t.name ≠ "") :
    rmCmd tl id = RmResult.removed
      ⟨tl.tasks.filterMap (fun t =>
        if t.id = id then none
        else if t.parent = some id then some { t with parent := none }
        else some t)⟩ := by
  have hids : ((tl.tasks.map (clearParentOf id)).map (fun t => t.id)) =
      tl.tasks.map (fun t => t.id) := by
    rw [List.map_map]
    exact List.map_congr_left (fun t _ => clearParentOf_id id t)
  obtain ⟨t0, ht0, ht0id, ht0name⟩ := hmem
  have hmem1 : ∃ t ∈ tl.tasks.map (clearParentOf id), t.id = id :=
    ⟨clearParentOf id t0, List.mem_map_of_mem _ ht0, by rw [clearParentOf_id, ht0id]⟩
  have hnod1 : ((tl.tasks.map (clearParentOf id)).map (fun t => t.id)).Nodup := by
    rw [hids]
    exact hnod
  obtain ⟨t1, ht1, ht1id, hrm⟩ := removeFirstById_found _ id hnod1 hmem1
  obtain ⟨u, hu, huq⟩ := List.mem_map.mp ht1
  have huid : u.id = id := by
    rw [← huq] at ht1id
    rw [clearParentOf_id] at ht1id
    exact ht1id
  have hut0 : u = t0 := by
    have hinj := List.inj_on_of_nodup_map hnod
    exact hinj hu ht0 (by rw [huid, ht0id])
  have ht1name : t1.name ≠ "" := by
    rw [← huq, clearParentOf_name, hut0]
    exact ht0name
  have hfm : (tl.tasks.map (clearParentOf id)).filterMap
        (fun t => if t.id = id then none else some t) =
      tl.tasks.filterMap (fun t =>
        if t.id = id then none
        else if t.parent = some id then some { t with parent := none }
        else some t) := by
    rw [List.filterMap_map]
    apply congrArg (fun f => List.filterMap f tl.tasks)
    funext t
    simp only [Function.comp]
    cases hp : t.parent with
    | none => simp [clearParentOf, hp]
    | some x =>
      by_cases hx : x = id
      · simp [clearParentOf, hp, hx, clearParentOf_id]
      · simp [clearParentOf, hp, hx]
  simp [rmCmd, hrm, ht1name, hfm]

/-- C8 witness: removing the middle task of the chain 0 - 1 - 2 deletes
task 1, makes task 2 a root, and leaves task 0 untouched. -/
theorem rm_frame_C8_witness :
    NodupIds exW8 ∧ rmCmd exW8 1 = RmResult.removed
      ⟨[exTask 0 none none none false, exTask 2 none none none false]⟩ := by
  refine ⟨by decide, ?_⟩
  have h := rm_frame_C8 exW8 1 (by decide)
    ⟨exTask 1 (some 0) none none false, by decide, by decide, by decide⟩
  rw [h]
  decide

/- Claim C6: which tasks the interval propagator can touch.  The skeleton
lemmas show that the propagator never changes ids, parents or order, so the
child and index queries of the source are invariant along a run. -/

theorem skel_id (t : Task) : (skel t).id = t.id := rfl

theorem skel_parent (t : Task) : (skel t).parent = t.parent := rfl

theorem writeDates_skel (tl : TaskList) (id : Nat) (st en : Option Int) :
    (writeDates tl id st en).tasks.map skel = tl.tasks.map skel := by
  unfold writeDates
  rw [List.map_map]
  apply List.map_congr_left
  intro t _
  by_cases h : (t.id == id) = true
  · simp only [Function.comp, h, if_true]
    rfl
  · simp [Function.comp, h]

theorem skel_length (l1 l2 : List Task) (h : l1.map skel = l2.map skel) :
    l1.length = l2.length := by
  have h2 := congrArg List.length h
  simpa using h2

theorem skel_getD (l1 l2 : List Task) (h : l1.map skel = l2.map skel) (j : Nat) :
    skel (l1.getD j dTask) = skel (l2.getD j dTask) := by
  by_cases hj : j < l1.length
  · have hj2 : j < l2.length := by
      rw [← skel_length l1 l2 h]
      exact hj
    have h1 : (l1.map skel).getD j (skel dTask) = skel (l1.getD j dTask) :=
      List.getD_map l1 dTask skel
    have h2 : (l2.map skel).getD j (skel dTask) = skel (l2.getD j dTask) :=
      List.getD_map l2 dTask skel
    rw [← h1, ← h2, h]
  · rw [List.getD_eq_default _ _ (by omega), List.getD_eq_default]
    rw [← skel_length l1 l2 h]
    omega

theorem skel_getD_id (l1 l2 : List Task) (h : l1.map skel = l2.map skel) (j : Nat) :
    (l1.getD j dTask).id = (l2.getD j dTask).id := by
  have h2 := congrArg Task.id (skel_getD l1 l2 h j)
  simpa [skel_id] using h2

theorem taskIndexOf_skel (id : Nat) : ∀ (l1 l2 : List Task) (i : Nat),
    l1.map skel = l2.map skel → taskIndexOf l1 id i = taskIndexOf l2 id i := by
  intro l1
  induction l1 with
  | nil =>
    intro l2 i h
    cases l2 with
    | nil => rfl
    | cons u rest2 => simp at h
  | cons t rest ih =>
    intro l2 i h
    cases l2 with
    | nil => simp at h
    | cons u rest2 =>
      simp only [List.map_cons, List.cons.injEq] at h
      have hid : t.id = u.id := by
        have h2 := congrArg Task.id h.1
        simpa [skel_id] using h2
      unfold taskIndexOf
      rw [hid, ih rest2 (i + 1) h.2]

theorem isChildOf_congr (p : Nat) (t u : Task) (h : t.parent = u.parent) :
    isChildOf p t = isChildOf p u := by
  unfold isChildOf
  rw [h]

theorem children_isEmpty_skel (p : Nat) : ∀ (l1 l2 : List Task),
    l1.map skel = l2.map skel →
    (l1.filter (isChildOf p)).isEmpty = (l2.filter (isChildOf p)).isEmpty := by
  intro l1
  induction l1 with
  | nil =>
    intro l2 h
    cases l2 with
    | nil => rfl
    | cons u rest2 => simp at h
  | cons t rest ih =>
    intro l2 h
    cases l2 with
    | nil => simp at h
    | cons u rest2 =>
      simp only [List.map_cons, List.cons.injEq] at h
      have hp : t.parent = u.parent := by
        have h2 := congrArg Task.parent h.1
        simpa [skel_parent] using h2
      rw [List.filter_cons, List.filter_cons, isChildOf_congr p t u hp]
      cases hc : isChildOf p u
      · simpa using ih rest2 h.2
      · simp [List.isEmpty]

theorem task_has_children_skel (tlA tlB : TaskList) (id : Nat)
    (h : tlA.tasks.map skel = tlB.tasks.map skel) :
    task_has_children tlA id = task_has_children tlB id := by
  unfold task_has_children get_all_children_of_task
  rw [taskIndexOf_skel id tlA.tasks tlB.tasks 0 h]
  cases taskIndexOf tlB.tasks id 0 with
  | none => rfl
  | some i => simp [children_isEmpty_skel i tlA.tasks tlB.tasks h]

theorem fitChildrenGo_skel
    (fitF : TaskList → Nat → Option (TaskList × Option Int × Option Int))
    (hF : ∀ tl id tl1 s e, fitF tl id = some (tl1, s, e) →
      tl1.tasks.map skel = tl.tasks.map skel) :
    ∀ (cs : List Task) (tl : TaskList) (st en : Option Int) (tl1 : TaskList)
      (s e : Option Int),
      fitChildrenGo fitF tl cs st en = some (tl1, s, e) →
      tl1.tasks.map skel = tl.tasks.map skel := by
  intro cs
  induction cs with
  | nil =>
    intro tl st en tl1 s e h
    unfold fitChildrenGo at h
    cases h
    rfl
  | cons c rest ih =>
    intro tl st en tl1 s e h
    unfold fitChildrenGo at h
    cases hc : task_has_children tl c.id with
    | false =>
      rw [hc] at h
      simp only [Bool.false_eq_true, if_false] at h
      exact ih _ _ _ _ _ _ h
    | true =>
      rw [hc] at h
      simp only [if_true] at h
      cases hcall : fitF tl c.id with
      | none =>
        rw [hcall] at h
        exact absurd h (by simp)
      | some r =>
        obtain ⟨tlr, sr, er⟩ := r
        rw [hcall] at h
        have h1 := hF tl c.id tlr sr er hcall
        have h2 := ih _ _ _ _ _ _ h
        rw [h2, writeDates_skel, h1]

theorem fit_skel : ∀ (fuel : Nat) (tl : TaskList) (id : Nat) (tl1 : TaskList)
    (s e : Option Int),
    fit_task_size_to_children fuel tl id = some (tl1, s, e) →
    tl1.tasks.map skel = tl.tasks.map skel := by
  intro fuel
  induction fuel with
  | zero =>
    intro tl id tl1 s e h
    exact absurd h (by simp [fit_task_size_to_children])
  | succ fuel ih =>
    intro tl id tl1 s e h
    rw [fit_succ] at h
    cases hcall : fitChildren fuel tl (get_all_children_of_task tl id) none none with
    | none =>
      rw [hcall] at h
      exact absurd h (by simp)
    | some r =>
      obtain ⟨tl0, st, en⟩ := r
      rw [hcall] at h
      cases h
      have h2 := fitChildrenGo_skel _ ih _ _ _ _ _ _ _ hcall
      rw [writeDates_skel, h2]

theorem writeDates_getD_ne (tl : TaskList) (id : Nat) (st en : Option Int) (j : Nat)
    (h : (tl.tasks.getD j dTask).id ≠ id) :
    (writeDates tl id st en).tasks.getD j dTask = tl.tasks.getD j dTask := by
  by_cases hj : j < tl.tasks.length
  · have hj2 : j < ((writeDates tl id st en).tasks).length := by
      unfold writeDates
      simpa using hj
    rw [List.getD_eq_getElem _ _ hj2, List.getD_eq_getElem _ _ hj]
    unfold writeDates
    simp only [List.getElem_map]
    have hne : (tl.tasks[j].id == id) = false := by
      rw [beq_eq_false_iff_ne]
      rw [List.getD_eq_getElem _ _ hj] at h
      exact h
    simp [hne]
  · have hj1 : tl.tasks.length ≤ j := Nat.le_of_not_lt hj
    have hlen : (writeDates tl id st en).tasks.length = tl.tasks.length := by
      unfold writeDates
      simp
    rw [List.getD_eq_default _ _ hj1, List.getD_eq_default]
    rw [hlen]
    exact hj1

theorem fitChildrenGo_untouched
    (fitF : TaskList → Nat → Option (TaskList × Option Int × Option Int))
    (hFs : ∀ tl id tl1 s e, fitF tl id = some (tl1, s, e) →
      tl1.tasks.map skel = tl.tasks.map skel)
    (hFu : ∀ tl id tl1 s e, fitF tl id = some (tl1, s, e) → ∀ j,
      (tl.tasks.getD j dTask).id ≠ id →
      task_has_children tl (tl.tasks.getD j dTask).id = false →
      tl1.tasks.getD j dTask = tl.tasks.getD j dTask) :
    ∀ (cs : List Task) (tl : TaskList) (st en : Option Int) (tl1 : TaskList)
      (s e : Option Int),
      fitChildrenGo fitF tl cs st en = some (tl1, s, e) → ∀ j,
      task_has_children tl (tl.tasks.getD j dTask).id = false →
      tl1.tasks.getD j dTask = tl.tasks.getD j dTask := by
  intro cs
  induction cs with
  | nil =>
    intro tl st en tl1 s e h j hflag
    unfold fitChildrenGo at h
    cases h
    rfl
  | cons c rest ih =>
    intro tl st en tl1 s e h j hflag
    unfold fitChildrenGo at h
    cases hc : task_has_children tl c.id with
    | false =>
      rw [hc] at h
      simp only [Bool.false_eq_true, if_false] at h
      exact ih _ _ _ _ _ _ h j hflag
    | true =>
      rw [hc] at h
      simp only [if_true] at h
      cases hcall : fitF tl c.id with
      | none =>
        rw [hcall] at h
        exact absurd h (by simp)
      | some r =>
        obtain ⟨tlr, sr, er⟩ := r
        rw [hcall] at h
        have hne : (tl.tasks.getD j dTask).id ≠ c.id := by
          intro hq
          rw [hq, hc] at hflag
          exact absurd hflag (by simp)
        have hskr : tlr.tasks.map skel = tl.tasks.map skel := hFs tl c.id tlr sr er hcall
        have hsk2 : (writeDates tlr c.id sr er).tasks.map skel = tl.tasks.map skel := by
          rw [writeDates_skel, hskr]
        have hstep1 : tlr.tasks.getD j dTask = tl.tasks.getD j dTask :=
          hFu tl c.id tlr sr er hcall j hne hflag
        have hstep2 : (writeDates tlr c.id sr er).tasks.getD j dTask =
            tlr.tasks.getD j dTask := by
          apply writeDates_getD_ne
          rw [hstep1]
          exact hne
        have hflag2 : task_has_children (writeDates tlr c.id sr er)
            ((writeDates tlr c.id sr er).tasks.getD j dTask).id = false := by
          rw [skel_getD_id _ tl.tasks hsk2 j]
          rw [task_has_children_skel _ tl _ hsk2]
          exact hflag
        have h3 := ih _ _ _ _ _ _ h j hflag2
        rw [h3, hstep2, hstep1]

theorem fit_untouched_aux : ∀ (fuel : Nat) (tl : TaskList) (id : Nat) (tl1 : TaskList)
    (s e : Option Int),
    fit_task_size_to_children fuel tl id = some (tl1, s, e) → ∀ j,
    (tl.tasks.getD j dTask).id ≠ id →
    task_has_children tl (tl.tasks.getD j dTask).id = false →
    tl1.tasks.getD j dTask = tl.tasks.getD j dTask := by
  intro fuel
  induction fuel with
  | zero =>
    intro tl id tl1 s e h
    exact absurd h (by simp [fit_task_size_to_children])
  | succ fuel ih =>
    intro tl id tl1 s e h j hne hflag
    rw [fit_succ] at h
    cases hcall : fitChildren fuel tl (get_all_children_of_task tl id) none none with
    | none =>
      rw [hcall] at h
      exact absurd h (by simp)
    | some r =>
      obtain ⟨tl0, st, en⟩ := r
      rw [hcall] at h
      cases h
      have hsk0 : tl0.tasks.map skel = tl.tasks.map skel :=
        fitChildrenGo_skel _ (fit_skel fuel) _ _ _ _ _ _ _ hcall
      have h1 : tl0.tasks.getD j dTask = tl.tasks.getD j dTask :=
        fitChildrenGo_untouched _ (fit_skel fuel) ih _ _ _ _ _ _ _ hcall j hflag
      rw [writeDates_getD_ne, h1]
      rw [h1]
      exact hne

/-- C6 counterexample: the claim fails in two ways at concrete inputs.
Invoked directly on the childless task 0 (which carries start 5 and due 7),
the propagator overwrites both dates with absent ones; and invoked on root
1 of a store where ids differ from positions, it overwrites the dates of
the childless task 2 (invoked id 1, not 2) because the index-based child
test misreads position 1 as children of task 2. -/
theorem fit_touches_childless_C6_counterexample :
    (get_all_children_of_task exC6a 0 = [] ∧
      fit_task_size_to_children 3 exC6a 0 =
        some (⟨[exTask 0 none none none false]⟩, none, none)) ∧
    (get_all_children_of_task exC6b 2 = [] ∧
      fit_task_size_to_children 5 exC6b 1 =
        some (⟨[exTask 1 none none none false, exTask 2 (some 1) none none false,
          exTask 3 (some 1) none none false]⟩, none, none)) := by
  decide

/-- C6 amended: for every task with no children, the interval propagation
routine leaves the task (its start time and due date included) untouched,
PROVIDED the routine was invoked on a different id and the source's
position-based child test also classifies the task as childless; a
childless task failing either proviso can be overwritten with absent
dates. -/
theorem fit_untouched_C6 (fuel : Nat) (tl : TaskList) (id : Nat) (tl1 : TaskList)
    (s e : Option Int) (j : Nat)
    (hfit : fit_task_size_to_children fuel tl id = some (tl1, s, e))
    (_hchildless : get_all_children_of_task tl (tl.tasks.getD j dTask).id = [])
    (hflag : task_has_children tl (tl.tasks.getD j dTask).id = false)
    (hne : (tl.tasks.getD j dTask).id ≠ id) :
    tl1.tasks.getD j dTask = tl.tasks.getD j dTask :=
  fit_untouched_aux fuel tl id tl1 s e hfit j hne hflag

/-- C6 amended witness: fitting root 0 of the chain 0 - 1 leaves the
childless leaf 1 (both provisos satisfied) untouched. -/
theorem fit_untouched_C6_witness :
    fit_task_size_to_children 3 exW6 0 = some (exW6r, some 2, some 3) ∧
      exW6r.tasks.getD 1 dTask = exW6.tasks.getD 1 dTask := by
  refine ⟨by decide, ?_⟩
  exact fit_untouched_C6 3 exW6 0 exW6r (some 2) (some 3) 1 (by decide) (by decide)
    (by decide) (by decide)

/- Claims C3 and C4: the tree builder.  Positional helper lemmas first. -/

theorem getD_mem_nat (l : List Nat) (j : Nat) (h : j < l.length) : l.getD j 0 ∈ l := by
  rw [List.getD_eq_getElem _ _ h]
  exact List.getElem_mem h

theorem getD_mem_task (l : List Task) (j : Nat) (h : j < l.length) : l.getD j dTask ∈ l := by
  rw [List.getD_eq_getElem _ _ h]
  exact List.getElem_mem h

theorem map_task_getD (tree : List TaskTreeNode) (k : Nat) (hk : k < tree.length) :
    (tree.map (fun nd => nd.task)).getD k none = (tree.getD k dNode).task := by
  rw [List.getD_eq_getElem _ _ (by simpa using hk), List.getD_eq_getElem _ _ hk,
    List.getElem_map]

theorem map_natfun_getD (pl : List Nat) (f : Nat → Option Nat) (m : Nat)
    (hm : m < pl.length) : (pl.map f).getD m none = f (pl.getD m 0) := by
  rw [List.getD_eq_getElem _ _ (by simpa using hm), List.getD_eq_getElem _ _ hm,
    List.getElem_map]

theorem modifyIdx_length (f : TaskTreeNode → TaskTreeNode) :
    ∀ (l : List TaskTreeNode) (k : Nat), (modifyIdx l k f).length = l.length := by
  intro l
  induction l with
  | nil => intro k; rfl
  | cons x xs ih =>
    intro k
    cases k with
    | zero => rfl
    | succ k => simp [modifyIdx, ih k]

theorem modifyIdx_getD_ne (f : TaskTreeNode → TaskTreeNode) :
    ∀ (l : List TaskTreeNode) (k j : Nat), k ≠ j →
      (modifyIdx l k f).getD j dNode = l.getD j dNode := by
  intro l
  induction l with
  | nil => intro k j _; cases k <;> rfl
  | cons x xs ih =>
    intro k j h
    cases k with
    | zero =>
      cases j with
      | zero => exact absurd rfl h
      | succ j => rfl
    | succ k =>
      cases j with
      | zero => rfl
      | succ j =>
        simp only [modifyIdx, List.getD_cons_succ]
        exact ih k j (fun hq => h (by rw [hq]))

theorem modifyIdx_getD_self (f : TaskTreeNode → TaskTreeNode) :
    ∀ (l : List TaskTreeNode) (k : Nat), k < l.length →
      (modifyIdx l k f).getD k dNode = f (l.getD k dNode) := by
  intro l
  induction l with
  | nil => intro k h; simp at h
  | cons x xs ih =>
    intro k h
    cases k with
    | zero => rfl
    | succ k =>
      simp only [modifyIdx, List.getD_cons_succ]
      exact ih k (by simpa using h)

theorem modifyIdx_map_task (f : TaskTreeNode → TaskTreeNode)
    (hf : ∀ nd, (f nd).task = nd.task) :
    ∀ (l : List TaskTreeNode) (k : Nat),
      (modifyIdx l k f).map (fun nd => nd.task) = l.map (fun nd => nd.task) := by
  intro l
  induction l with
  | nil => intro k; rfl
  | cons x xs ih =>
    intro k
    cases k with
    | zero => simp [modifyIdx, hf x]
    | succ k => simp [modifyIdx, ih k]

theorem modifyIdx_flatten_children (extra : Nat) :
    ∀ (l : List TaskTreeNode) (i : Nat), i < l.length →
      ((modifyIdx l i (fun nd => { nd with children := nd.children ++ [extra] })).map
          (fun nd => nd.children)).flatten.Perm
        ((l.map (fun nd => nd.children)).flatten ++ [extra]) := by
  intro l
  induction l with
  | nil => intro i h; simp at h
  | cons x xs ih =>
    intro i hi
    cases i with
    | zero =>
      simp only [modifyIdx, List.map_cons, List.flatten_cons]
      have e1 : (x.children ++ [extra]) ++ (xs.map (fun nd => nd.children)).flatten =
          x.children ++ ([extra] ++ (xs.map (fun nd => nd.children)).flatten) := by
        rw [List.append_assoc]
      rw [e1]
      have e2 : (x.children ++ (xs.map (fun nd => nd.children)).flatten) ++ [extra] =
          x.children ++ ((xs.map (fun nd => nd.children)).flatten ++ [extra]) := by
        rw [List.append_assoc]
      rw [e2]
      exact List.Perm.append_left x.children List.perm_append_comm
    | succ i =>
      simp only [modifyIdx, List.map_cons, List.flatten_cons]
      have hperm := ih i (by simpa using hi)
      have e2 : (x.children ++ (xs.map (fun nd => nd.children)).flatten) ++ [extra] =
          x.children ++ ((xs.map (fun nd => nd.children)).flatten ++ [extra]) := by
        rw [List.append_assoc]
      rw [e2]
      exact List.Perm.append_left x.children hperm

theorem placeNode_length (tree : List TaskTreeNode) (i tid : Nat) :
    (placeNode tree i tid).length = tree.length + 1 := by
  unfold placeNode
  simp [modifyIdx_length]

theorem placeNode_map_task (tree : List TaskTreeNode) (i tid : Nat) :
    (placeNode tree i tid).map (fun nd => nd.task) =
      tree.map (fun nd => nd.task) ++ [some tid] := by
  unfold placeNode
  rw [List.map_append,
    modifyIdx_map_task (fun nd => { nd with children := nd.children ++ [tree.length] })
      (fun nd => rfl)]
  rfl

theorem placeNode_getD_old (tree : List TaskTreeNode) (i tid k : Nat)
    (hk : k < tree.length) (hne : k ≠ i) :
    (placeNode tree i tid).getD k dNode = tree.getD k dNode := by
  unfold placeNode
  rw [List.getD_append _ _ _ _ (by rw [modifyIdx_length]; exact hk)]
  exact modifyIdx_getD_ne _ tree i k (fun h => hne h.symm)

theorem placeNode_getD_at (tree : List TaskTreeNode) (i tid : Nat) (hi : i < tree.length) :
    (placeNode tree i tid).getD i dNode =
      { tree.getD i dNode with
        children := (tree.getD i dNode).children ++ [tree.length] } := by
  unfold placeNode
  rw [List.getD_append _ _ _ _ (by rw [modifyIdx_length]; exact hi)]
  exact modifyIdx_getD_self _ tree i hi

theorem placeNode_getD_new (tree : List TaskTreeNode) (i tid : Nat) :
    (placeNode tree i tid).getD tree.length dNode =
      { task := some tid, children := [] } := by
  unfold placeNode
  rw [List.getD_append_right _ _ _ _ (by rw [modifyIdx_length])]
  rw [modifyIdx_length]
  simp

theorem findParentIdxGo_some (p : Option Nat) :
    ∀ (tree : List TaskTreeNode) (i r : Nat),
      findParentIdxGo tree p i = some r →
      i ≤ r ∧ r - i < tree.length ∧ (tree.getD (r - i) dNode).task = p := by
  intro tree
  induction tree with
  | nil => intro i r h; exact absurd h (by simp [findParentIdxGo])
  | cons nd rest ih =>
    intro i r h
    unfold findParentIdxGo at h
    by_cases hb : (nd.task == p) = true
    · rw [if_pos hb] at h
      cases h
      refine ⟨Nat.le_refl _, by simp, ?_⟩
      simp only [Nat.sub_self, List.getD_cons_zero]
      exact beq_iff_eq.mp hb
    · rw [if_neg hb] at h
      obtain ⟨h1, h2, h3⟩ := ih (i + 1) r h
      refine ⟨by omega, by simp only [List.length_cons]; omega, ?_⟩
      have e : r - i = (r - (i + 1)) + 1 := by omega
      rw [e, List.getD_cons_succ]
      exact h3

theorem findParentIdx_some (tree : List TaskTreeNode) (p : Option Nat) (r : Nat)
    (h : findParentIdx tree p = some r) :
    r < tree.length ∧ (tree.getD r dNode).task = p := by
  obtain ⟨_, h2, h3⟩ := findParentIdxGo_some p tree 0 r h
  constructor
  · simpa using h2
  · simpa using h3

theorem findParentIdxGo_complete (p : Option Nat) :
    ∀ (tree : List TaskTreeNode) (i : Nat),
      (∃ k, k < tree.length ∧ (tree.getD k dNode).task = p) →
      findParentIdxGo tree p i ≠ none := by
  intro tree
  induction tree with
  | nil =>
    intro i h
    obtain ⟨k, hk, _⟩ := h
    simp at hk
  | cons nd rest ih =>
    intro i h
    unfold findParentIdxGo
    by_cases hb : (nd.task == p) = true
    · rw [if_pos hb]
      simp
    · rw [if_neg hb]
      apply ih
      obtain ⟨k, hk, hkt⟩ := h
      cases k with
      | zero =>
        rw [List.getD_cons_zero] at hkt
        exact absurd (beq_iff_eq.mpr hkt) hb
      | succ k =>
        rw [List.getD_cons_succ] at hkt
        exact ⟨k, by simpa using hk, hkt⟩

theorem genGo_nil (fuel : Nat) (tl : TaskList) (tree : List TaskTreeNode) :
    genGo fuel tl tree [] = some tree := by
  cases fuel with
  | zero => rfl
  | succ fuel => rfl

theorem genInv_init (tl : TaskList) :
    GenInv tl [{ task := none, children := [] }]
      (List.range tl.tasks.length).reverse [] := by
  refine ⟨?_, rfl, ?_, ?_⟩
  · rw [List.append_nil]
    exact List.reverse_perm (List.range tl.tasks.length)
  · intro k hk c hc
    have hk0 : k = 0 := by
      simp only [List.length_cons, List.length_nil] at hk
      omega
    rw [hk0, List.getD_cons_zero] at hc
    simp at hc
  · simp

theorem genInv_queue_lt (tl : TaskList) (tree : List TaskTreeNode)
    (queue placed : List Nat) (hinv : GenInv tl tree queue placed) :
    (∀ x ∈ queue, x < tl.tasks.length) ∧ (∀ x ∈ placed, x < tl.tasks.length) := by
  obtain ⟨h1, _, _, _⟩ := hinv
  constructor
  · intro x hx
    have hx2 : x ∈ queue ++ placed := List.mem_append.mpr (Or.inl hx)
    have := h1.mem_iff.mp hx2
    exact List.mem_range.mp this
  · intro x hx
    have hx2 : x ∈ queue ++ placed := List.mem_append.mpr (Or.inr hx)
    have := h1.mem_iff.mp hx2
    exact List.mem_range.mp this

theorem genInv_node_task (tl : TaskList) (tree : List TaskTreeNode)
    (queue placed : List Nat) (hinv : GenInv tl tree queue placed) :
    0 < tree.length ∧ tree.length = placed.length + 1 ∧
    (tree.getD 0 dNode).task = none ∧
    ∀ m, m < placed.length →
      (tree.getD (m + 1) dNode).task =
        some ((tl.tasks.getD (placed.getD m 0) dTask).id) := by
  obtain ⟨_, h2, _, _⟩ := hinv
  have hlen : tree.length = placed.length + 1 := by
    have := congrArg List.length h2
    simpa using this
  refine ⟨by omega, hlen, ?_, ?_⟩
  · have h0 : 0 < tree.length := by omega
    rw [← map_task_getD tree 0 h0, h2, List.getD_cons_zero]
  · intro m hm
    have hm1 : m + 1 < tree.length := by omega
    rw [← map_task_getD tree (m + 1) hm1, h2, List.getD_cons_succ]
    exact map_natfun_getD placed _ m hm

theorem genInv_requeue (tl : TaskList) (tree : List TaskTreeNode) (t : Nat)
    (rest placed : List Nat) (h : GenInv tl tree (t :: rest) placed) :
    GenInv tl tree (rest ++ [t]) placed := by
  obtain ⟨h1, h2, h3, h4⟩ := h
  refine ⟨?_, h2, h3, h4⟩
  have h1x : (t :: (rest ++ placed)).Perm (List.range tl.tasks.length) := by
    simpa using h1
  have e1 : (rest ++ [t]) ++ placed = rest ++ t :: placed := by simp
  rw [e1]
  exact List.Perm.trans List.perm_middle h1x

theorem genInv_place (tl : TaskList) (tree : List TaskTreeNode) (t i : Nat)
    (rest placed : List Nat)
    (hinv : GenInv tl tree (t :: rest) placed)
    (hfind : findParentIdx tree ((tl.tasks.getD t dTask).parent) = some i) :
    GenInv tl (placeNode tree i ((tl.tasks.getD t dTask).id)) rest (placed ++ [t]) := by
  obtain ⟨hilt, hitask⟩ := findParentIdx_some tree _ i hfind
  obtain ⟨hpos, hlen, hroot, hnodes⟩ := genInv_node_task tl tree (t :: rest) placed hinv
  obtain ⟨h1, h2, h3, h4⟩ := hinv
  refine ⟨?_, ?_, ?_, ?_⟩
  · have h1x : (t :: (rest ++ placed)).Perm (List.range tl.tasks.length) := by
      simpa using h1
    have hp : (rest ++ (placed ++ [t])).Perm (t :: (rest ++ placed)) := by
      have := List.perm_append_singleton t (rest ++ placed)
      have e : rest ++ (placed ++ [t]) = (rest ++ placed) ++ [t] := by
        rw [List.append_assoc]
      rw [e]
      exact this
    exact hp.trans h1x
  · rw [placeNode_map_task, h2, List.map_append]
    rfl
  · intro k hk c hc
    rw [placeNode_length] at hk
    by_cases hkold : k < tree.length
    · by_cases hki : k = i
      · rw [hki, placeNode_getD_at tree i _ hilt] at hc
        have htask_eq : (placeNode tree i ((tl.tasks.getD t dTask).id)).getD k dNode =
            { tree.getD i dNode with
              children := (tree.getD i dNode).children ++ [tree.length] } := by
          rw [hki]
          exact placeNode_getD_at tree i _ hilt
        rw [htask_eq]
        simp only at hc
        rcases List.mem_append.mp hc with hcold | hcnew
        · obtain ⟨hc1, hc2, hc3⟩ := h3 i hilt c hcold
          refine ⟨hc1, by rw [placeNode_length]; omega, ?_⟩
          have hcp : c - 1 < placed.length := by omega
          rw [List.getD_append _ _ _ _ hcp]
          exact hc3
        · have hce : c = tree.length := by simpa using hcnew
          refine ⟨by omega, by rw [placeNode_length]; omega, ?_⟩
          rw [hce]
          have e1 : tree.length - 1 = placed.length := by omega
          rw [e1, List.getD_append_right _ _ _ _ (Nat.le_refl _), Nat.sub_self]
          simpa using hitask.symm
      · rw [placeNode_getD_old tree i _ k hkold hki] at hc ⊢
        obtain ⟨hc1, hc2, hc3⟩ := h3 k hkold c hc
        refine ⟨hc1, by rw [placeNode_length]; omega, ?_⟩
        have hcp : c - 1 < placed.length := by omega
        rw [List.getD_append _ _ _ _ hcp]
        exact hc3
    · have hke : k = tree.length := by omega
      rw [hke, placeNode_getD_new] at hc
      simp at hc
  · have hflat := modifyIdx_flatten_children tree.length tree i hilt
    have e1 : (placeNode tree i ((tl.tasks.getD t dTask).id)).map (fun nd => nd.children) =
        (modifyIdx tree i
          (fun nd => { nd with children := nd.children ++ [tree.length] })).map
            (fun nd => nd.children) ++ [[]] := by
      unfold placeNode
      rw [List.map_append]
      rfl
    rw [e1, List.flatten_append]
    simp only [List.flatten_cons, List.flatten_nil, List.append_nil]
    have htarget : (List.range ((placeNode tree i ((tl.tasks.getD t dTask).id)).length - 1)).map
        (fun x => x + 1) =
        ((List.range (tree.length - 1)).map (fun x => x + 1)) ++ [tree.length] := by
      rw [placeNode_length]
      have e2 : tree.length + 1 - 1 = (tree.length - 1) + 1 := by omega
      rw [e2, List.range_succ, List.map_append]
      have e3 : tree.length - 1 + 1 = tree.length := by omega
      simp [e3]
    rw [htarget]
    exact hflat.trans (List.Perm.append h4 (List.Perm.refl [tree.length]))

theorem get?_eq_some_getD (l : List Task) (t : Nat) (h : t < l.length) :
    l.get? t = some (l.getD t dTask) := by
  rw [List.get?_eq_getElem?, List.getElem?_eq_getElem h, List.getD_eq_getElem _ _ h]

theorem genGo_mono : ∀ (fuel fuel' : Nat) (tl : TaskList) (tree : List TaskTreeNode)
    (queue : List Nat) (r : List TaskTreeNode), fuel ≤ fuel' →
    genGo fuel tl tree queue = some r → genGo fuel' tl tree queue = some r := by
  intro fuel
  induction fuel with
  | zero =>
    intro fuel' tl tree queue r _ h
    cases queue with
    | nil =>
      rw [genGo_nil] at h ⊢
      exact h
    | cons t rest => exact absurd h (by simp [genGo])
  | succ fuel ih =>
    intro fuel' tl tree queue r hle h
    cases queue with
    | nil =>
      rw [genGo_nil] at h ⊢
      exact h
    | cons t rest =>
      cases fuel' with
      | zero => omega
      | succ fuel2 =>
        have hle2 : fuel ≤ fuel2 := by omega
        unfold genGo at h ⊢
        cases hget : tl.tasks.get? t with
        | none =>
          rw [hget] at h
          exact absurd h (by simp)
        | some task =>
          simp only [hget] at h ⊢
          cases hfind : findParentIdx tree task.parent with
          | some i =>
            simp only [hfind] at h ⊢
            exact ih fuel2 tl _ rest r hle2 h
          | none =>
            simp only [hfind] at h ⊢
            exact ih fuel2 tl tree (rest ++ [t]) r hle2 h

theorem genGo_place_step (tl : TaskList) (tree : List TaskTreeNode) (t : Nat)
    (rest : List Nat) (i : Nat)
    (hget : tl.tasks.get? t = some (tl.tasks.getD t dTask))
    (hfind : findParentIdx tree ((tl.tasks.getD t dTask).parent) = some i) :
    ∀ fuel, genGo (1 + fuel) tl tree (t :: rest) =
      genGo fuel tl (placeNode tree i ((tl.tasks.getD t dTask).id)) rest := by
  intro fuel
  have e : 1 + fuel = fuel + 1 := by omega
  rw [e]
  conv_lhs => unfold genGo
  simp only [hget, hfind]

theorem genGo_requeue_step (tl : TaskList) (tree : List TaskTreeNode) (t : Nat)
    (rest : List Nat)
    (hget : tl.tasks.get? t = some (tl.tasks.getD t dTask))
    (hfind : findParentIdx tree ((tl.tasks.getD t dTask).parent) = none) :
    ∀ fuel, genGo (1 + fuel) tl tree (t :: rest) =
      genGo fuel tl tree (rest ++ [t]) := by
  intro fuel
  have e : 1 + fuel = fuel + 1 := by omega
  rw [e]
  conv_lhs => unfold genGo
  simp only [hget, hfind]

theorem stepsToPlace (tl : TaskList) :
    ∀ (j : Nat) (tree : List TaskTreeNode) (queue placed : List Nat),
    GenInv tl tree queue placed → j < queue.length →
    findParentIdx tree ((tl.tasks.getD (queue.getD j 0) dTask).parent) ≠ none →
    ∃ steps tree1 queue1 placed1, steps ≤ j + 1 ∧ 1 ≤ steps ∧
      GenInv tl tree1 queue1 placed1 ∧ queue1.length + 1 = queue.length ∧
      ∀ fuel, genGo (steps + fuel) tl tree queue = genGo fuel tl tree1 queue1 := by
  intro j
  induction j with
  | zero =>
    intro tree queue placed hinv hj hfind
    cases queue with
    | nil => simp at hj
    | cons t rest =>
      rw [List.getD_cons_zero] at hfind
      cases hfo : findParentIdx tree ((tl.tasks.getD t dTask).parent) with
      | none => exact absurd hfo hfind
      | some i =>
        have htn : t < tl.tasks.length :=
          (genInv_queue_lt tl tree (t :: rest) placed hinv).1 t (by simp)
        have hget := get?_eq_some_getD tl.tasks t htn
        refine ⟨1, placeNode tree i ((tl.tasks.getD t dTask).id), rest, placed ++ [t],
          by omega, by omega, genInv_place tl tree t i rest placed hinv hfo, by simp, ?_⟩
        intro fuel
        exact genGo_place_step tl tree t rest i hget hfo fuel
  | succ j ih =>
    intro tree queue placed hinv hj hfind
    cases queue with
    | nil => simp at hj
    | cons t rest =>
      have htn : t < tl.tasks.length :=
        (genInv_queue_lt tl tree (t :: rest) placed hinv).1 t (by simp)
      have hget := get?_eq_some_getD tl.tasks t htn
      cases hfo : findParentIdx tree ((tl.tasks.getD t dTask).parent) with
      | some i =>
        refine ⟨1, placeNode tree i ((tl.tasks.getD t dTask).id), rest, placed ++ [t],
          by omega, by omega, genInv_place tl tree t i rest placed hinv hfo, by simp, ?_⟩
        intro fuel
        exact genGo_place_step tl tree t rest i hget hfo fuel
      | none =>
        have hinv2 := genInv_requeue tl tree t rest placed hinv
        have hjr : j < rest.length := by
          simp only [List.length_cons] at hj
          omega
        have hj2 : j < (rest ++ [t]).length := by
          simp only [List.length_append, List.length_singleton]
          omega
        have helem : (rest ++ [t]).getD j 0 = (t :: rest).getD (j + 1) 0 := by
          rw [List.getD_cons_succ, List.getD_append _ _ _ _ hjr]
        obtain ⟨steps, tree1, queue1, placed1, hs1, hs2, hinv1, hlen1, heq⟩ :=
          ih tree (rest ++ [t]) placed hinv2 hj2 (by rw [helem]; exact hfind)
        refine ⟨steps + 1, tree1, queue1, placed1, by omega, by omega, hinv1, ?_, ?_⟩
        · simp only [List.length_append, List.length_singleton] at hlen1
          simp only [List.length_cons]
          omega
        · intro fuel
          have e : steps + 1 + fuel = 1 + (steps + fuel) := by omega
          rw [e, genGo_requeue_step tl tree t rest hget hfo (steps + fuel)]
          exact heq fuel

theorem genInv_progress (tl : TaskList) (tree : List TaskTreeNode)
    (queue placed : List Nat) (hinv : GenInv tl tree queue placed) :
    ∀ (k a : Nat), a ∈ queue →
      resolvableB k tl (tl.tasks.getD a dTask) = true →
      ∃ j, j < queue.length ∧
        findParentIdx tree ((tl.tasks.getD (queue.getD j 0) dTask).parent) ≠ none := by
  intro k
  induction k with
  | zero =>
    intro a _ hr
    simp [resolvableB] at hr
  | succ k ih =>
    intro a ha hr
    obtain ⟨hpos, hlen, hroot, hnodes⟩ := genInv_node_task tl tree queue placed hinv
    obtain ⟨ja, hja, hjae⟩ := List.getElem_of_mem ha
    cases hp : (tl.tasks.getD a dTask).parent with
    | none =>
      refine ⟨ja, hja, ?_⟩
      rw [List.getD_eq_getElem _ _ hja, hjae, hp]
      exact findParentIdxGo_complete none tree 0 ⟨0, hpos, hroot⟩
    | some p =>
      simp only [resolvableB, hp] at hr
      rw [List.any_eq_true] at hr
      obtain ⟨u, hu, hup⟩ := hr
      rw [Bool.and_eq_true, beq_iff_eq] at hup
      obtain ⟨b, hb, hbe⟩ := List.getElem_of_mem hu
      have hbd : tl.tasks.getD b dTask = u := by
        rw [List.getD_eq_getElem _ _ hb]
        exact hbe
      by_cases hbq : b ∈ queue
      · exact ih b hbq (by rw [hbd]; exact hup.2)
      · have hbp : b ∈ placed := by
          have hinrange : b ∈ List.range tl.tasks.length := List.mem_range.mpr hb
          have := hinv.1.mem_iff.mpr hinrange
          rcases List.mem_append.mp this with h | h
          · exact absurd h hbq
          · exact h
        obtain ⟨m, hm, hme⟩ := List.getElem_of_mem hbp
        have hmd : placed.getD m 0 = b := by
          rw [List.getD_eq_getElem _ _ hm]
          exact hme
        have hnode : (tree.getD (m + 1) dNode).task = some p := by
          rw [hnodes m hm, hmd, hbd, hup.1]
        refine ⟨ja, hja, ?_⟩
        rw [List.getD_eq_getElem _ _ hja, hjae, hp]
        exact findParentIdxGo_complete (some p) tree 0 ⟨m + 1, by omega, hnode⟩

theorem genGo_run (tl : TaskList) (hres : AllResolvable tl) :
    ∀ (q : Nat) (tree : List TaskTreeNode) (queue placed : List Nat),
      queue.length = q → GenInv tl tree queue placed →
      ∃ treeF placedF, genGo (fuelFor q) tl tree queue = some treeF ∧
        GenInv tl treeF [] placedF := by
  intro q
  induction q with
  | zero =>
    intro tree queue placed hq hinv
    have hqe : queue = [] := List.length_eq_zero.mp hq
    subst hqe
    exact ⟨tree, placed, genGo_nil _ _ _, hinv⟩
  | succ q ih =>
    intro tree queue placed hq hinv
    cases queue with
    | nil => simp at hq
    | cons t rest =>
      have hat : t ∈ t :: rest := by simp
      have htn : t < tl.tasks.length :=
        (genInv_queue_lt tl tree (t :: rest) placed hinv).1 t hat
      have hrt : resolvableB tl.tasks.length tl (tl.tasks.getD t dTask) = true :=
        hres _ (getD_mem_task tl.tasks t htn)
      obtain ⟨j, hj, hjfind⟩ :=
        genInv_progress tl tree (t :: rest) placed hinv tl.tasks.length t hat hrt
      obtain ⟨steps, tree1, queue1, placed1, hs1, hs2, hinv1, hlen1, heq⟩ :=
        stepsToPlace tl j tree (t :: rest) placed hinv hj hjfind
      have hq1 : queue1.length = q := by
        rw [hq] at hlen1
        omega
      obtain ⟨treeF, placedF, hF, hinvF⟩ := ih tree1 queue1 placed1 hq1 hinv1
      refine ⟨treeF, placedF, ?_, hinvF⟩
      have hful : fuelFor (q + 1) = (q + 1) + fuelFor q := rfl
      have hrq : rest.length = q := by
        simp only [List.length_cons] at hq
        omega
      have hjq : j + 1 ≤ q + 1 := by
        simp only [List.length_cons] at hj
        omega
      have hsteps_le : steps ≤ fuelFor (q + 1) := by omega
      have e : fuelFor (q + 1) = steps + (fuelFor (q + 1) - steps) := by omega
      rw [e, heq]
      exact genGo_mono (fuelFor q) _ tl tree1 queue1 treeF (by omega) hF

theorem map_range_getD : ∀ (l : List Task),
    (List.range l.length).map (fun a => l.getD a dTask) = l := by
  intro l
  induction l with
  | nil => rfl
  | cons x xs ih =>
    rw [List.length_cons, List.range_succ_eq_map xs.length, List.map_cons, List.map_map]
    rw [List.getD_cons_zero]
    have e : ((fun a => (x :: xs).getD a dTask) ∘ Nat.succ) =
        fun a => xs.getD a dTask := by
      funext a
      simp [List.getD_cons_succ]
    rw [e, ih]

theorem filterMap_task_of_map_task :
    ∀ (l : List TaskTreeNode) (pl : List Nat) (f : Nat → Nat),
      l.map (fun nd => nd.task) = pl.map (fun a => some (f a)) →
      l.filterMap (fun nd => nd.task) = pl.map f := by
  intro l
  induction l with
  | nil =>
    intro pl f h
    cases pl with
    | nil => rfl
    | cons b bs => simp at h
  | cons nd rest ih =>
    intro pl f h
    cases pl with
    | nil => simp at h
    | cons b bs =>
      simp only [List.map_cons, List.cons.injEq] at h
      rw [List.filterMap_cons, List.map_cons, h.1]
      simp only []
      rw [ih bs f h.2]

/-- C3: for every collection whose parent relation is acyclic and fully
resolvable, the tree builder (run with quadratic fuel, which suffices)
produces a forest with one synthetic root node holding no task reference,
one node per task; the ids carried by the nodes are exactly the ids of the
collection (each exactly once); the child index lists hold every non-root
node position exactly once (a partition, no duplicates, no omissions); and
every child node carries a task whose parent field equals the task
reference of the node it hangs under (none for the synthetic root). -/
theorem tree_builder_partition_C3 (tl : TaskList) (hres : AllResolvable tl) :
    ∃ tree, generate_task_tree (fuelFor tl.tasks.length) tl = some tree ∧
      tree.length = tl.tasks.length + 1 ∧
      (tree.getD 0 dNode).task = none ∧
      (tree.filterMap (fun nd => nd.task)).Perm (tl.tasks.map (fun t => t.id)) ∧
      ((tree.map (fun nd => nd.children)).flatten).Perm
        ((List.range tl.tasks.length).map (fun x => x + 1)) ∧
      (∀ k, k < tree.length → ∀ c ∈ (tree.getD k dNode).children,
        ∃ u ∈ tl.tasks, (tree.getD c dNode).task = some u.id ∧
          u.parent = (tree.getD k dNode).task) := by
  obtain ⟨treeF, placedF, hF, hinvF⟩ :=
    genGo_run tl hres tl.tasks.length [{ task := none, children := [] }]
      (List.range tl.tasks.length).reverse [] (by simp) (genInv_init tl)
  obtain ⟨hpos, hlenF, hrootF, hnodesF⟩ :=
    genInv_node_task tl treeF [] placedF hinvF
  have hplaced_perm : placedF.Perm (List.range tl.tasks.length) := by
    have := hinvF.1
    simpa using this
  have hplaced_len : placedF.length = tl.tasks.length := by
    have := hplaced_perm.length_eq
    simpa using this
  have hlenF2 : treeF.length = tl.tasks.length + 1 := by omega
  have hplaced_lt : ∀ x ∈ placedF, x < tl.tasks.length :=
    (genInv_queue_lt tl treeF [] placedF hinvF).2
  refine ⟨treeF, hF, hlenF2, hrootF, ?_, ?_, ?_⟩
  · -- every task id appears exactly once
    have h2 := hinvF.2.1
    cases htf : treeF with
    | nil =>
      rw [htf] at h2
      simp at h2
    | cons nd body =>
      rw [htf] at h2
      simp only [List.map_cons, List.cons.injEq] at h2
      rw [List.filterMap_cons, h2.1]
      simp only []
      rw [filterMap_task_of_map_task body placedF _ h2.2]
      have hmapped : (placedF.map (fun a => (tl.tasks.getD a dTask).id)).Perm
          ((List.range tl.tasks.length).map (fun a => (tl.tasks.getD a dTask).id)) :=
        hplaced_perm.map _
      have e : (List.range tl.tasks.length).map (fun a => (tl.tasks.getD a dTask).id) =
          tl.tasks.map (fun t => t.id) := by
        have e2 := congrArg (List.map (fun t : Task => t.id)) (map_range_getD tl.tasks)
        rw [← e2, List.map_map]
        rfl
      rw [e] at hmapped
      exact hmapped
  · have h4 := hinvF.2.2.2
    rw [hlenF2] at h4
    simpa using h4
  · intro k hk c hc
    obtain ⟨hc1, hc2, hc3⟩ := hinvF.2.2.1 k hk c hc
    have hcm : c - 1 < placedF.length := by omega
    have ha_lt : placedF.getD (c - 1) 0 < tl.tasks.length :=
      hplaced_lt _ (getD_mem_nat placedF (c - 1) hcm)
    refine ⟨tl.tasks.getD (placedF.getD (c - 1) 0) dTask,
      getD_mem_task tl.tasks _ ha_lt, ?_, hc3⟩
    have e : c = (c - 1) + 1 := by omega
    rw [e]
    exact hnodesF (c - 1) hcm

/-- C3 witness: the three-task chain is acyclic and fully resolvable and
the builder yields a four-node forest carrying each task id exactly once. -/
theorem tree_builder_partition_C3_witness :
    AllResolvable exW8 ∧
      ∃ tree, generate_task_tree (fuelFor exW8.tasks.length) exW8 = some tree ∧
        tree.length = exW8.tasks.length + 1 ∧
        (tree.filterMap (fun nd => nd.task)).Perm (exW8.tasks.map (fun t => t.id)) := by
  refine ⟨by decide, ?_⟩
  obtain ⟨tree, h1, h2, _, h4, _, _⟩ := tree_builder_partition_C3 exW8 (by decide)
  exact ⟨tree, h1, h2, h4⟩

/- Claim C4: termination exactly on acyclic, fully resolvable inputs. -/

theorem genGo_stuck : ∀ (fuel : Nat) (tl : TaskList) (tree : List TaskTreeNode)
    (queue : List Nat) (a : Nat),
    a ∈ queue → a < tl.tasks.length →
    (∀ k, resolvableB k tl (tl.tasks.getD a dTask) = false) →
    (∀ k, k < tree.length → ∀ p, (tree.getD k dNode).task = some p →
      ∃ u ∈ tl.tasks, u.id = p ∧ ∃ m, resolvableB m tl u = true) →
    genGo fuel tl tree queue = none := by
  intro fuel
  induction fuel with
  | zero =>
    intro tl tree queue a ha _ _ _
    cases queue with
    | nil => simp at ha
    | cons t rest => rfl
  | succ fuel ih =>
    intro tl tree queue a ha hlt hbad hnodes
    cases queue with
    | nil => simp at ha
    | cons t rest =>
      conv_lhs => unfold genGo
      cases hget : tl.tasks.get? t with
      | none => simp [hget]
      | some task =>
        have htlen : t < tl.tasks.length := by
          by_contra hcon
          rw [List.get?_eq_none.mpr (by omega)] at hget
          exact Option.noConfusion hget
        have htask : task = tl.tasks.getD t dTask := by
          rw [get?_eq_some_getD tl.tasks t htlen] at hget
          exact (Option.some.inj hget).symm
        cases hfind : findParentIdx tree task.parent with
        | some i =>
          simp only [hget, hfind]
          obtain ⟨hi, hitask⟩ := findParentIdx_some tree _ i hfind
          have hres : ∃ m, resolvableB m tl task = true := by
            cases hp : task.parent with
            | none => exact ⟨1, by simp [resolvableB, hp]⟩
            | some p =>
              rw [hp] at hitask
              obtain ⟨u, hu, huid, m, hum⟩ := hnodes i hi p hitask
              refine ⟨m + 1, ?_⟩
              simp only [resolvableB, hp]
              rw [List.any_eq_true]
              exact ⟨u, hu, by rw [Bool.and_eq_true, beq_iff_eq]; exact ⟨huid, hum⟩⟩
          have hat : a ≠ t := by
            intro hq
            obtain ⟨m, hm⟩ := hres
            rw [htask, ← hq] at hm
            rw [hbad m] at hm
            exact Bool.noConfusion hm
          have ha2 : a ∈ rest := by
            rcases List.mem_cons.mp ha with h | h
            · exact absurd h hat
            · exact h
          apply ih tl _ rest a ha2 hlt hbad
          intro k hk p hp
          rw [placeNode_length] at hk
          by_cases hkl : k < tree.length
          · by_cases hki : k = i
            · rw [hki, placeNode_getD_at tree i _ hi] at hp
              exact hnodes i hi p hp
            · rw [placeNode_getD_old tree i _ k hkl hki] at hp
              exact hnodes k hkl p hp
          · have hke : k = tree.length := by omega
            rw [hke, placeNode_getD_new] at hp
            have hpid : task.id = p := by
              simpa using hp
            obtain ⟨m, hm⟩ := hres
            refine ⟨task, ?_, hpid, m, hm⟩
            rw [htask]
            exact getD_mem_task tl.tasks t htlen
        | none =>
          simp only [hget, hfind]
          apply ih tl tree (rest ++ [t]) a ?_ hlt hbad hnodes
          rcases List.mem_cons.mp ha with h | h
          · rw [h]
            simp
          · simp [h]

theorem exCyc_not_resolvable : ∀ k,
    resolvableB k exCyc (exTask 0 (some 1) none none false) = false ∧
    resolvableB k exCyc (exTask 1 (some 0) none none false) = false := by
  intro k
  induction k with
  | zero => exact ⟨rfl, rfl⟩
  | succ k ih =>
    obtain ⟨ih1, ih2⟩ := ih
    simp only [exTask, exCyc] at ih1 ih2
    constructor
    · simp [resolvableB, exCyc, exTask, ih1, ih2]
    · simp [resolvableB, exCyc, exTask, ih1, ih2]

/-- C4: the tree-builder loop terminates for every collection whose parent
relation is acyclic with every parent id resolving (quadratic fuel
suffices), and runs forever - exhausting any amount of fuel - for every
collection containing a task whose parent chain never resolves to a root,
which covers parent-link cycles (such as two mutually referring tasks) and
dangling parent ids. -/
theorem tree_builder_termination_C4 :
    (∀ tl : TaskList, AllResolvable tl →
      ∃ tree, generate_task_tree (fuelFor tl.tasks.length) tl = some tree) ∧
    (∀ tl : TaskList, (∃ t ∈ tl.tasks, ∀ k, resolvableB k tl t = false) →
      ∀ fuel, generate_task_tree fuel tl = none) := by
  constructor
  · intro tl hres
    obtain ⟨treeF, placedF, hF, _⟩ :=
      genGo_run tl hres tl.tasks.length [{ task := none, children := [] }]
        (List.range tl.tasks.length).reverse [] (by simp) (genInv_init tl)
    exact ⟨treeF, hF⟩
  · intro tl hbadx fuel
    obtain ⟨t, ht, htk⟩ := hbadx
    obtain ⟨a, halt, hae⟩ := List.getElem_of_mem ht
    apply genGo_stuck fuel tl _ _ a ?_ halt ?_ ?_
    · rw [List.mem_reverse]
      exact List.mem_range.mpr halt
    · intro k
      rw [List.getD_eq_getElem _ _ halt, hae]
      exact htk k
    · intro k hk p hp
      have hk0 : k = 0 := by
        simp only [List.length_cons, List.length_nil] at hk
        omega
      rw [hk0, List.getD_cons_zero] at hp
      exact Option.noConfusion hp

/-- C4 witness: the builder succeeds on the acyclic chain and returns
nothing on the two-task parent cycle however much fuel it is given. -/
theorem tree_builder_termination_C4_witness :
    (∃ tree, generate_task_tree (fuelFor exW8.tasks.length) exW8 = some tree) ∧
      generate_task_tree 50 exCyc = none := by
  constructor
  · exact tree_builder_termination_C4.1 exW8 (by decide)
  · exact tree_builder_termination_C4.2 exCyc
      ⟨exTask 0 (some 1) none none false, by decide,
        fun k => (exCyc_not_resolvable k).1⟩ 50

/- Claim C9: idempotence of the interval propagator.  Pure ancestry lemmas
first: under distinct ids and a resolvable parent relation the regions of
two distinct children of one id are disjoint and avoid the id itself. -/

theorem task_id_inj (tl : TaskList) (hnd : NodupIds tl) :
    ∀ u ∈ tl.tasks, ∀ v ∈ tl.tasks, u.id = v.id → u = v := by
  intro u hu v hv he
  exact List.inj_on_of_nodup_map hnd hu hv he

theorem anc_extend (tl : TaskList) :
    ∀ {x : Task} {b : Nat}, Anc tl b x →
    ∀ {c : Task} {aa : Nat}, c ∈ tl.tasks → c.id = b → c.parent = some aa →
    Anc tl aa x := by
  intro x b h
  induction h with
  | step hp =>
    intro c aa hc hcid hcp
    exact Anc.trans hp hc hcid (Anc.step hcp)
  | trans hp hu huid _ ih =>
    intro c aa hc hcid hcp
    exact Anc.trans hp hu huid (ih hc hcid hcp)

theorem no_self_parent_res (tl : TaskList) (hnd : NodupIds tl) :
    ∀ (k : Nat) (c : Task), c ∈ tl.tasks → c.parent = some c.id →
      resolvableB k tl c = false := by
  intro k
  induction k with
  | zero => intro c _ _; rfl
  | succ k ih =>
    intro c hc hcp
    simp only [resolvableB, hcp]
    rw [List.any_eq_false]
    intro u hu
    by_cases hui : u.id = c.id
    · have hue : u = c := task_id_inj tl hnd u hu c hc hui
      rw [hue]
      simp [ih c hc hcp]
    · simp [hui]

theorem no_self_parent (tl : TaskList) (hnd : NodupIds tl) (hres : AllResolvable tl) :
    ∀ c ∈ tl.tasks, c.parent ≠ some c.id := by
  intro c hc hcp
  have h1 := hres c hc
  rw [no_self_parent_res tl hnd tl.tasks.length c hc hcp] at h1
  exact Bool.noConfusion h1

theorem anc_height (tl : TaskList) (hnd : NodupIds tl) :
    ∀ {x : Task} {a : Nat}, Anc tl a x → ∀ k, resolvableB k tl x = true →
      ∃ u ∈ tl.tasks, u.id = a ∧ ∃ m, m < k ∧ resolvableB m tl u = true := by
  intro x a h
  induction h with
  | step hp =>
    intro k hk
    cases k with
    | zero => exact absurd hk (by simp [resolvableB])
    | succ k =>
      simp only [resolvableB, hp] at hk
      rw [List.any_eq_true] at hk
      obtain ⟨u, hu, hub⟩ := hk
      rw [Bool.and_eq_true, beq_iff_eq] at hub
      exact ⟨u, hu, hub.1, k, by omega, hub.2⟩
  | trans hp hw hwid _ ih =>
    intro k hk
    cases k with
    | zero => exact absurd hk (by simp [resolvableB])
    | succ k =>
      simp only [resolvableB, hp] at hk
      rw [List.any_eq_true] at hk
      obtain ⟨u, hu, hub⟩ := hk
      rw [Bool.and_eq_true, beq_iff_eq] at hub
      have huw := task_id_inj tl hnd u hu _ hw (by rw [hub.1, hwid])
      obtain ⟨v, hv, hvid, m, hm, hvm⟩ := ih k (by rw [← huw]; exact hub.2)
      exact ⟨v, hv, hvid, m, by omega, hvm⟩

theorem no_self_anc_aux (tl : TaskList) (hnd : NodupIds tl) :
    ∀ (k : Nat), ∀ x ∈ tl.tasks, resolvableB k tl x = true → ¬ Anc tl x.id x := by
  intro k
  induction k using Nat.strong_induction_on with
  | _ k ih =>
    intro x hx hxk hanc
    obtain ⟨u, hu, huid, m, hm, hum⟩ := anc_height tl hnd hanc k hxk
    have hux : u = x := task_id_inj tl hnd u hu x hx huid
    exact ih m hm x hx (by rw [← hux]; exact hum) hanc

theorem no_self_anc (tl : TaskList) (hnd : NodupIds tl) (hres : AllResolvable tl) :
    ∀ x ∈ tl.tasks, ¬ Anc tl x.id x := by
  intro x hx
  exact no_self_anc_aux tl hnd tl.tasks.length x hx (hres x hx)

theorem anc_comparable (tl : TaskList) (hnd : NodupIds tl) :
    ∀ {x : Task} {a : Nat}, Anc tl a x → ∀ {b : Nat}, Anc tl b x →
      a = b ∨ (∃ w ∈ tl.tasks, w.id = a ∧ Anc tl b w) ∨
        (∃ w ∈ tl.tasks, w.id = b ∧ Anc tl a w) := by
  intro x a h
  induction h with
  | step hp =>
    intro b hb
    cases hb with
    | step hpb =>
      left
      rw [hp] at hpb
      exact Option.some.inj hpb
    | trans hpb hw hwid hancb =>
      right
      left
      rw [hp] at hpb
      have hap := Option.some.inj hpb
      exact ⟨_, hw, by rw [hwid, ← hap], hancb⟩
  | trans hp hu huid hanca ih =>
    intro b hb
    cases hb with
    | step hpb =>
      right
      right
      rw [hpb] at hp
      have hbp := Option.some.inj hp
      exact ⟨_, hu, by rw [huid, ← hbp], hanca⟩
    | trans hpb hw hwid hancb =>
      rw [hp] at hpb
      have hpp := Option.some.inj hpb
      have hwu := task_id_inj tl hnd _ hw _ hu (by rw [hwid, huid, hpp])
      rcases ih (by rw [← hwu]; exact hancb) with h | h | h
      · exact Or.inl h
      · exact Or.inr (Or.inl h)
      · exact Or.inr (Or.inr h)

theorem anc_sibling_absurd (tl : TaskList) (hnd : NodupIds tl) (hres : AllResolvable tl)
    (id : Nat) :
    ∀ {c d : Task}, c ∈ tl.tasks → d ∈ tl.tasks → c.parent = some id →
      d.parent = some id → Anc tl d.id c → False := by
  intro c d hc hd hcp hdp hanc
  cases hanc with
  | step hpc =>
    rw [hcp] at hpc
    have he := Option.some.inj hpc
    exact no_self_parent tl hnd hres d hd (by rw [← he]; exact hdp)
  | trans hpc hw hwid hancw =>
    rw [hcp] at hpc
    have hpid := Option.some.inj hpc
    have h2 : Anc tl id _ := anc_extend tl hancw hd rfl hdp
    apply no_self_anc tl hnd hres _ hw
    rw [hwid, ← hpid]
    exact h2

theorem region_mono (tl : TaskList) (hnd : NodupIds tl) (id : Nat) :
    ∀ {c : Task}, c ∈ tl.tasks → c.parent = some id →
    ∀ {x : Task}, x ∈ tl.tasks → Region tl c.id x → Region tl id x := by
  intro c hc hcp x hx hr
  rcases hr with hr | hr
  · have hxc : x = c := task_id_inj tl hnd x hx c hc hr
    right
    rw [hxc]
    exact Anc.step hcp
  · right
    exact anc_extend tl hr hc rfl hcp

theorem region_not_top (tl : TaskList) (hnd : NodupIds tl) (hres : AllResolvable tl)
    (id : Nat) :
    ∀ {c : Task}, c ∈ tl.tasks → c.parent = some id →
    ∀ {x : Task}, x ∈ tl.tasks → x.id = id → ¬ Region tl c.id x := by
  intro c hc hcp x hx hxid hr
  rcases hr with hr | hr
  · apply no_self_parent tl hnd hres c hc
    rw [hcp]
    rw [← hr, hxid]
  · have h2 : Anc tl id x := anc_extend tl hr hc rfl hcp
    rw [← hxid] at h2
    exact no_self_anc tl hnd hres x hx h2

theorem region_disjoint (tl : TaskList) (hnd : NodupIds tl) (hres : AllResolvable tl)
    (id : Nat) :
    ∀ {c d : Task}, c ∈ tl.tasks → d ∈ tl.tasks → c.parent = some id →
      d.parent = some id → c.id ≠ d.id →
    ∀ {x : Task}, x ∈ tl.tasks → Region tl c.id x → Region tl d.id x → False := by
  intro c d hc hd hcp hdp hne x hx hrc hrd
  rcases hrc with hrc | hrc
  · have hxc : x = c := task_id_inj tl hnd x hx c hc hrc
    rcases hrd with hrd | hrd
    · exact hne (by rw [← hrc, hrd])
    · rw [hxc] at hrd
      exact anc_sibling_absurd tl hnd hres id hc hd hcp hdp hrd
  · rcases hrd with hrd | hrd
    · have hxd : x = d := task_id_inj tl hnd x hx d hd hrd
      rw [hxd] at hrc
      exact anc_sibling_absurd tl hnd hres id hd hc hdp hcp hrc
    · rcases anc_comparable tl hnd hrc hrd with h | h | h
      · exact hne h
      · obtain ⟨w, hw, hwid, hancw⟩ := h
        have hwc : w = c := task_id_inj tl hnd w hw c hc hwid
        rw [hwc] at hancw
        exact anc_sibling_absurd tl hnd hres id hc hd hcp hdp hancw
      · obtain ⟨w, hw, hwid, hancw⟩ := h
        have hwd : w = d := task_id_inj tl hnd w hw d hd hwid
        rw [hwd] at hancw
        exact anc_sibling_absurd tl hnd hres id hd hc hdp hcp hancw

/- Transfer lemmas: everything the propagator dispatches on (ids, parents,
child tests, resolvability, ancestry) is invariant across lists with equal
skeletons. -/

theorem skel_getD_parent (l1 l2 : List Task) (h : l1.map skel = l2.map skel) (j : Nat) :
    (l1.getD j dTask).parent = (l2.getD j dTask).parent := by
  have h2 := congrArg Task.parent (skel_getD l1 l2 h j)
  simpa [skel_parent] using h2

theorem mem_transfer (l1 l2 : List Task) (h : l1.map skel = l2.map skel) :
    ∀ u ∈ l1, ∃ v ∈ l2, v.id = u.id ∧ v.parent = u.parent := by
  intro u hu
  obtain ⟨j, hj, hje⟩ := List.getElem_of_mem hu
  have hj2 : j < l2.length := by
    rw [← skel_length l1 l2 h]
    exact hj
  refine ⟨l2.getD j dTask, getD_mem_task l2 j hj2, ?_, ?_⟩
  · rw [← skel_getD_id l1 l2 h j, List.getD_eq_getElem _ _ hj, hje]
  · rw [← skel_getD_parent l1 l2 h j, List.getD_eq_getElem _ _ hj, hje]

theorem anc_transfer (tlA tlB : TaskList)
    (h : tlA.tasks.map skel = tlB.tasks.map skel) :
    ∀ {t : Task} {a : Nat}, Anc tlA a t →
    ∀ {s : Task}, s.parent = t.parent → Anc tlB a s := by
  intro t a hanc
  induction hanc with
  | step hp =>
    intro s hs
    exact Anc.step (by rw [hs, hp])
  | trans hp hu huid _ ih =>
    intro s hs
    obtain ⟨v, hv, hvid, hvp⟩ := mem_transfer tlA.tasks tlB.tasks h _ hu
    exact Anc.trans (by rw [hs, hp]) hv (by rw [hvid, huid]) (ih hvp)

theorem region_transfer (tlA tlB : TaskList)
    (h : tlA.tasks.map skel = tlB.tasks.map skel) :
    ∀ {t s : Task} {a : Nat}, s.id = t.id → s.parent = t.parent →
      Region tlA a t → Region tlB a s := by
  intro t s a hid hp hr
  rcases hr with hr | hr
  · left
    rw [hid, hr]
  · right
    exact anc_transfer tlA tlB h hr hp

theorem nodup_skel (tlA tlB : TaskList)
    (h : tlA.tasks.map skel = tlB.tasks.map skel) (hnd : NodupIds tlA) :
    NodupIds tlB := by
  have e1 : tlA.tasks.map (fun t => t.id) = tlB.tasks.map (fun t => t.id) := by
    have e2 : ∀ (l : List Task), l.map (fun t => t.id) = (l.map skel).map (fun t => t.id) := by
      intro l
      rw [List.map_map]
      exact List.map_congr_left (fun t _ => rfl)
    rw [e2 tlA.tasks, e2 tlB.tasks, h]
  unfold NodupIds at hnd ⊢
  rw [← e1]
  exact hnd

theorem resolvableB_skel (tlA tlB : TaskList)
    (h : tlA.tasks.map skel = tlB.tasks.map skel) :
    ∀ (k : Nat) (t s : Task), s.parent = t.parent →
      resolvableB k tlA t = resolvableB k tlB s := by
  intro k
  induction k with
  | zero => intro t s _; rfl
  | succ k ih =>
    intro t s hs
    simp only [resolvableB, hs]
    cases hp : t.parent with
    | none => rfl
    | some p =>
      have hany : ∀ (l1 l2 : List Task), l1.map skel = l2.map skel →
          l1.any (fun u => u.id == p && resolvableB k tlA u) =
          l2.any (fun u => u.id == p && resolvableB k tlB u) := by
        intro l1
        induction l1 with
        | nil =>
          intro l2 hl
          cases l2 with
          | nil => rfl
          | cons v vs => simp at hl
        | cons u us ihl =>
          intro l2 hl
          cases l2 with
          | nil => simp at hl
          | cons v vs =>
            simp only [List.map_cons, List.cons.injEq] at hl
            have hid : u.id = v.id := by
              have h2 := congrArg Task.id hl.1
              simpa [skel_id] using h2
            have hpp : v.parent = u.parent := by
              have h2 := congrArg Task.parent hl.1
              simpa [skel_parent] using h2.symm
            simp only [List.any_cons]
            rw [hid, ih u v hpp, ihl vs hl.2]
      exact hany tlA.tasks tlB.tasks h

theorem allres_skel (tlA tlB : TaskList)
    (h : tlA.tasks.map skel = tlB.tasks.map skel) (hres : AllResolvable tlA) :
    AllResolvable tlB := by
  intro s hs
  obtain ⟨j, hj, hje⟩ := List.getElem_of_mem hs
  have hj1 : j < tlA.tasks.length := by
    rw [skel_length tlA.tasks tlB.tasks h]
    exact hj
  have hlen : tlB.tasks.length = tlA.tasks.length :=
    (skel_length tlA.tasks tlB.tasks h).symm
  rw [hlen]
  have hp : s.parent = (tlA.tasks.getD j dTask).parent := by
    rw [skel_getD_parent tlA.tasks tlB.tasks h j, List.getD_eq_getElem _ _ hj, hje]
  rw [← resolvableB_skel tlA tlB h tlA.tasks.length (tlA.tasks.getD j dTask) s hp]
  exact hres _ (getD_mem_task tlA.tasks j hj1)

theorem list_ext_getD : ∀ (l1 l2 : List Task), l1.length = l2.length →
    (∀ j, l1.getD j dTask = l2.getD j dTask) → l1 = l2 := by
  intro l1
  induction l1 with
  | nil =>
    intro l2 hlen _
    cases l2 with
    | nil => rfl
    | cons v vs => simp at hlen
  | cons u us ih =>
    intro l2 hlen h
    cases l2 with
    | nil => simp at hlen
    | cons v vs =>
      have h0 := h 0
      simp only [List.getD_cons_zero] at h0
      have hrest : us = vs := by
        apply ih vs (by simpa using hlen)
        intro j
        have hj := h (j + 1)
        simpa [List.getD_cons_succ] using hj
      rw [h0, hrest]

theorem writeDates_getD_eq (tl : TaskList) (cid : Nat) (s e : Option Int) (j : Nat)
    (hj : j < tl.tasks.length) (hid : (tl.tasks.getD j dTask).id = cid) :
    (writeDates tl cid s e).tasks.getD j dTask =
      { tl.tasks.getD j dTask with start_time := s, due_date := e } := by
  have hj2 : j < ((writeDates tl cid s e).tasks).length := by
    unfold writeDates
    simpa using hj
  rw [List.getD_eq_getElem _ _ hj2]
  unfold writeDates
  simp only [List.getElem_map]
  have hb : (tl.tasks[j].id == cid) = true := by
    rw [beq_iff_eq]
    rw [List.getD_eq_getElem _ _ hj] at hid
    exact hid
  rw [List.getD_eq_getElem _ _ hj]
  simp [hb]

theorem writeDates_in_values (tl : TaskList) (cid : Nat) (s e : Option Int) :
    ∀ t ∈ (writeDates tl cid s e).tasks, t.id = cid →
      t.start_time = s ∧ t.due_date = e := by
  intro t ht hid
  unfold writeDates at ht
  simp only [List.mem_map] at ht
  obtain ⟨u, _, hue⟩ := ht
  by_cases hb : (u.id == cid) = true
  · rw [if_pos hb] at hue
    rw [← hue]
    exact ⟨rfl, rfl⟩
  · rw [if_neg hb] at hue
    rw [← hue] at hid
    exact absurd (beq_iff_eq.mpr hid) hb

theorem writeDates_id_of_values (tl : TaskList) (cid : Nat) (s e : Option Int)
    (h : ∀ t ∈ tl.tasks, t.id = cid → t.start_time = s ∧ t.due_date = e) :
    writeDates tl cid s e = tl := by
  unfold writeDates
  cases tl with
  | mk tasks =>
    simp only [TaskList.mk.injEq]
    have e1 : tasks.map (fun t =>
        if t.id == cid then { t with start_time := s, due_date := e } else t) =
        tasks.map (fun t => t) := by
      apply List.map_congr_left
      intro t ht
      by_cases hb : (t.id == cid) = true
      · rw [if_pos hb]
        obtain ⟨h1, h2⟩ := h t ht (beq_iff_eq.mp hb)
        rw [← h1, ← h2]
      · rw [if_neg hb]
    rw [e1, List.map_id']

theorem fit_writes_own (fuel : Nat) (tl : TaskList) (cid : Nat) (tlr : TaskList)
    (s e : Option Int) (h : fit_task_size_to_children fuel tl cid = some (tlr, s, e)) :
    ∀ t ∈ tlr.tasks, t.id = cid → t.start_time = s ∧ t.due_date = e := by
  cases fuel with
  | zero => exact absurd h (by simp [fit_task_size_to_children])
  | succ fuel =>
    rw [fit_succ] at h
    cases hcall : fitChildren fuel tl (get_all_children_of_task tl cid) none none with
    | none =>
      rw [hcall] at h
      exact absurd h (by simp)
    | some r =>
      obtain ⟨tl0, st, en⟩ := r
      rw [hcall] at h
      cases h
      exact writeDates_in_values tl0 cid _ _

theorem fit_self_write (fuel : Nat) (tl : TaskList) (cid : Nat) (tlr : TaskList)
    (s e : Option Int) (h : fit_task_size_to_children fuel tl cid = some (tlr, s, e)) :
    writeDates tlr cid s e = tlr :=
  writeDates_id_of_values tlr cid s e (fit_writes_own fuel tl cid tlr s e h)

theorem skel_getD_eq_default (l0 lX : List Task) (h : l0.map skel = lX.map skel)
    (j : Nat) (hj : l0.length ≤ j) : lX.getD j dTask = dTask := by
  apply List.getD_eq_default
  rw [← skel_length l0 lX h]
  exact hj

theorem filter_children_eq (id : Nat) : ∀ (l1 l2 : List Task),
    l1.map skel = l2.map skel →
    (∀ j, isChildOf id (l1.getD j dTask) = true → l2.getD j dTask = l1.getD j dTask) →
    l1.filter (isChildOf id) = l2.filter (isChildOf id) := by
  intro l1
  induction l1 with
  | nil =>
    intro l2 h _
    cases l2 with
    | nil => rfl
    | cons v vs => simp at h
  | cons u us ih =>
    intro l2 h hag
    cases l2 with
    | nil => simp at h
    | cons v vs =>
      simp only [List.map_cons, List.cons.injEq] at h
      have hpar : isChildOf id v = isChildOf id u := by
        apply isChildOf_congr
        have h2 := congrArg Task.parent h.1
        simpa [skel_parent] using h2.symm
      rw [List.filter_cons, List.filter_cons, hpar]
      have hrest : us.filter (isChildOf id) = vs.filter (isChildOf id) := by
        apply ih vs h.2
        intro j hj
        have := hag (j + 1) (by simpa [List.getD_cons_succ] using hj)
        simpa [List.getD_cons_succ] using this
      cases hc : isChildOf id u with
      | false => simpa using hrest
      | true =>
        have hv : v = u := by
          have := hag 0 (by simpa using hc)
          simpa using this
        simp only [if_true]
        rw [hv, hrest]

/-- Frame property of the child loop: running it from two lists that share
a skeleton and agree on the region of the parent id gives the same result
pair, writes the same values inside the region, and leaves each side's
tasks outside the region untouched. -/
theorem fitChildrenGo_frame (tl0 : TaskList) (hnd : NodupIds tl0)
    (_hres : AllResolvable tl0) (id : Nat)
    (fitF : TaskList → Nat → Option (TaskList × Option Int × Option Int))
    (hFsk : ∀ tlX cid r, fitF tlX cid = some r → r.1.tasks.map skel = tlX.tasks.map skel)
    (hF : ∀ (tlX tlY : TaskList) (cid : Nat) (tlX1 : TaskList) (s e : Option Int),
      tl0.tasks.map skel = tlX.tasks.map skel →
      tl0.tasks.map skel = tlY.tasks.map skel →
      (∀ j, Region tl0 cid (tl0.tasks.getD j dTask) →
        tlY.tasks.getD j dTask = tlX.tasks.getD j dTask) →
      fitF tlX cid = some (tlX1, s, e) →
      ∃ tlY1, fitF tlY cid = some (tlY1, s, e) ∧
        (∀ j, Region tl0 cid (tl0.tasks.getD j dTask) →
          tlY1.tasks.getD j dTask = tlX1.tasks.getD j dTask) ∧
        (∀ j, ¬ Region tl0 cid (tl0.tasks.getD j dTask) →
          tlY1.tasks.getD j dTask = tlY.tasks.getD j dTask)) :
    ∀ (cs : List Task) (tlA tlB : TaskList) (st en : Option Int) (tlA1 : TaskList)
      (s e : Option Int),
      tl0.tasks.map skel = tlA.tasks.map skel →
      tl0.tasks.map skel = tlB.tasks.map skel →
      (∀ c ∈ cs, ∃ u ∈ tl0.tasks, u.id = c.id ∧ u.parent = some id) →
      (∀ j, Region tl0 id (tl0.tasks.getD j dTask) →
        tlB.tasks.getD j dTask = tlA.tasks.getD j dTask) →
      fitChildrenGo fitF tlA cs st en = some (tlA1, s, e) →
      ∃ tlB1, fitChildrenGo fitF tlB cs st en = some (tlB1, s, e) ∧
        (∀ j, Region tl0 id (tl0.tasks.getD j dTask) →
          tlB1.tasks.getD j dTask = tlA1.tasks.getD j dTask) ∧
        (∀ j, ¬ Region tl0 id (tl0.tasks.getD j dTask) →
          tlB1.tasks.getD j dTask = tlB.tasks.getD j dTask) := by
  intro cs
  induction cs with
  | nil =>
    intro tlA tlB st en tlA1 s e _ _ _ hag hrun
    unfold fitChildrenGo at hrun
    cases hrun
    exact ⟨tlB, rfl, hag, fun j _ => rfl⟩
  | cons c rest ih =>
    intro tlA tlB st en tlA1 s e hskA hskB hcs hag hrun
    have hskAB : tlA.tasks.map skel = tlB.tasks.map skel := by
      rw [← hskA]
      exact hskB
    obtain ⟨u, hu, huid, hup⟩ := hcs c (by simp)
    have hflag : task_has_children tlB c.id = task_has_children tlA c.id :=
      (task_has_children_skel tlA tlB c.id hskAB).symm
    unfold fitChildrenGo at hrun ⊢
    rw [hflag]
    cases hfl : task_has_children tlA c.id with
    | false =>
      rw [hfl] at hrun
      simp only [Bool.false_eq_true, if_false] at hrun ⊢
      exact ih tlA tlB _ _ tlA1 s e hskA hskB (fun d hd => hcs d (by simp [hd])) hag hrun
    | true =>
      rw [hfl] at hrun
      simp only [if_true] at hrun ⊢
      cases hcall : fitF tlA c.id with
      | none =>
        rw [hcall] at hrun
        exact absurd hrun (by simp)
      | some rr =>
        obtain ⟨tlr, sc, ec⟩ := rr
        rw [hcall] at hrun
        obtain ⟨tlr', hrprun, _, hrpout⟩ :=
          hF tlA tlA c.id tlr sc ec hskA hskA (fun j _ => rfl) hcall
        have hrr : tlr' = tlr := by
          rw [hcall] at hrprun
          have h2 := Option.some.inj hrprun
          exact (congrArg Prod.fst h2).symm
        rw [hrr] at hrpout
        have hagc : ∀ j, Region tl0 c.id (tl0.tasks.getD j dTask) →
            tlB.tasks.getD j dTask = tlA.tasks.getD j dTask := by
          intro j hr
          by_cases hj : j < tl0.tasks.length
          · apply hag j
            exact region_mono tl0 hnd id hu hup (getD_mem_task _ j hj) (huid ▸ hr)
          · rw [skel_getD_eq_default tl0.tasks tlB.tasks hskB j (by omega),
              skel_getD_eq_default tl0.tasks tlA.tasks hskA j (by omega)]
        obtain ⟨tlBr, hBrun, hBag, hBout⟩ := hF tlA tlB c.id tlr sc ec hskA hskB hagc hcall
        have hskr : tl0.tasks.map skel = tlr.tasks.map skel := by
          rw [hskA, ← hFsk tlA c.id _ hcall]
        have hskBr : tl0.tasks.map skel = tlBr.tasks.map skel := by
          rw [hskB, ← hFsk tlB c.id _ hBrun]
        have hskA2 : tl0.tasks.map skel = (writeDates tlr c.id sc ec).tasks.map skel := by
          rw [writeDates_skel]
          exact hskr
        have hskB2 : tl0.tasks.map skel = (writeDates tlBr c.id sc ec).tasks.map skel := by
          rw [writeDates_skel]
          exact hskBr
        have hag2 : ∀ j, Region tl0 id (tl0.tasks.getD j dTask) →
            (writeDates tlBr c.id sc ec).tasks.getD j dTask =
              (writeDates tlr c.id sc ec).tasks.getD j dTask := by
          intro j hr
          by_cases hj : j < tl0.tasks.length
          · by_cases hjr : Region tl0 c.id (tl0.tasks.getD j dTask)
            · have hbase : tlBr.tasks.getD j dTask = tlr.tasks.getD j dTask := hBag j hjr
              by_cases hidm : (tlr.tasks.getD j dTask).id = c.id
              · have hjr2 : j < tlr.tasks.length := by
                  rw [← skel_length tl0.tasks tlr.tasks hskr]
                  exact hj
                have hjB2 : j < tlBr.tasks.length := by
                  rw [← skel_length tl0.tasks tlBr.tasks hskBr]
                  exact hj
                rw [writeDates_getD_eq tlr c.id sc ec j hjr2 hidm,
                  writeDates_getD_eq tlBr c.id sc ec j hjB2 (by rw [hbase]; exact hidm)]
                rw [hbase]
              · rw [writeDates_getD_ne tlr c.id sc ec j hidm,
                  writeDates_getD_ne tlBr c.id sc ec j (by rw [hbase]; exact hidm)]
                exact hbase
            · have h1 : tlBr.tasks.getD j dTask = tlB.tasks.getD j dTask := hBout j hjr
              have h2 : tlr.tasks.getD j dTask = tlA.tasks.getD j dTask := hrpout j hjr
              have hneq : (tlr.tasks.getD j dTask).id ≠ c.id := by
                intro hq
                apply hjr
                left
                rw [skel_getD_id tl0.tasks tlr.tasks hskr j]
                exact hq
              have hneqB : (tlBr.tasks.getD j dTask).id ≠ c.id := by
                rw [← skel_getD_id tl0.tasks tlBr.tasks hskBr j]
                rw [← skel_getD_id tl0.tasks tlr.tasks hskr j] at hneq
                exact hneq
              rw [writeDates_getD_ne tlr c.id sc ec j hneq,
                writeDates_getD_ne tlBr c.id sc ec j hneqB]
              rw [h1, h2]
              exact hag j hr
          · rw [skel_getD_eq_default tl0.tasks _ hskB2 j (by omega),
              skel_getD_eq_default tl0.tasks _ hskA2 j (by omega)]
        obtain ⟨tlB1, hB1run, hB1ag, hB1out⟩ :=
          ih (writeDates tlr c.id sc ec) (writeDates tlBr c.id sc ec)
            (combineMin st sc) (combineMax en ec) tlA1 s e hskA2 hskB2
            (fun d hd => hcs d (by simp [hd])) hag2 hrun
        refine ⟨tlB1, ?_, hB1ag, ?_⟩
        · rw [hBrun]
          exact hB1run
        · intro j hnr
          by_cases hj : j < tl0.tasks.length
          · rw [hB1out j hnr]
            have hnrc : ¬ Region tl0 c.id (tl0.tasks.getD j dTask) := by
              intro hq
              exact hnr (region_mono tl0 hnd id hu hup (getD_mem_task _ j hj) (huid ▸ hq))
            have hBoutj : tlBr.tasks.getD j dTask = tlB.tasks.getD j dTask := hBout j hnrc
            have hneq : (tlBr.tasks.getD j dTask).id ≠ c.id := by
              intro hq
              apply hnrc
              left
              rw [skel_getD_id tl0.tasks tlBr.tasks hskBr j]
              exact hq
            rw [writeDates_getD_ne tlBr c.id sc ec j hneq]
            exact hBoutj
          · have hsk1 : tl0.tasks.map skel = tlB1.tasks.map skel := by
              rw [hskB2]
              exact (fitChildrenGo_skel fitF
                (fun tlX cid tlX1 s2 e2 hx => hFsk tlX cid _ hx) rest
                (writeDates tlBr c.id sc ec) (combineMin st sc) (combineMax en ec)
                tlB1 s e hB1run).symm
            rw [skel_getD_eq_default tl0.tasks tlB1.tasks hsk1 j (by omega),
              skel_getD_eq_default tl0.tasks tlB.tasks hskB j (by omega)]

/-- Frame property of the whole propagator: two skeleton-equal lists that
agree on the region of the fitted id produce the same result pair, agree on
the region afterwards, and each keeps its tasks outside the region. -/
theorem fit_frame (tl0 : TaskList) (hnd : NodupIds tl0) (hres : AllResolvable tl0) :
    ∀ (fuel : Nat) (tlA tlB : TaskList) (id : Nat) (tlA1 : TaskList) (s e : Option Int),
      tl0.tasks.map skel = tlA.tasks.map skel →
      tl0.tasks.map skel = tlB.tasks.map skel →
      (∀ j, Region tl0 id (tl0.tasks.getD j dTask) →
        tlB.tasks.getD j dTask = tlA.tasks.getD j dTask) →
      fit_task_size_to_children fuel tlA id = some (tlA1, s, e) →
      ∃ tlB1, fit_task_size_to_children fuel tlB id = some (tlB1, s, e) ∧
        (∀ j, Region tl0 id (tl0.tasks.getD j dTask) →
          tlB1.tasks.getD j dTask = tlA1.tasks.getD j dTask) ∧
        (∀ j, ¬ Region tl0 id (tl0.tasks.getD j dTask) →
          tlB1.tasks.getD j dTask = tlB.tasks.getD j dTask) := by
  intro fuel
  induction fuel with
  | zero =>
    intro tlA tlB id tlA1 s e _ _ _ hrun
    exact absurd hrun (by simp [fit_task_size_to_children])
  | succ fuel ih =>
    intro tlA tlB id tlA1 s e hskA hskB hag hrun
    rw [fit_succ] at hrun
    cases hcall : fitChildren fuel tlA (get_all_children_of_task tlA id) none none with
    | none =>
      rw [hcall] at hrun
      exact absurd hrun (by simp)
    | some r =>
      obtain ⟨tlC, s, e⟩ := r
      rw [hcall] at hrun
      cases hrun
      have hskAB : tlA.tasks.map skel = tlB.tasks.map skel := by
        rw [← hskA]
        exact hskB
      have hcseq : get_all_children_of_task tlA id = get_all_children_of_task tlB id := by
        unfold get_all_children_of_task
        apply filter_children_eq id tlA.tasks tlB.tasks hskAB
        intro j hj
        apply hag j
        right
        apply Anc.step
        have hpj : (tl0.tasks.getD j dTask).parent = (tlA.tasks.getD j dTask).parent :=
          skel_getD_parent tl0.tasks tlA.tasks hskA j
        unfold isChildOf at hj
        cases hpp : (tlA.tasks.getD j dTask).parent with
        | none =>
          rw [hpp] at hj
          exact absurd hj (by simp)
        | some x =>
          rw [hpp] at hj
          have hx : x = id := by simpa using hj
          rw [hpj, hpp, hx]
      have hcs : ∀ c ∈ get_all_children_of_task tlA id,
          ∃ u ∈ tl0.tasks, u.id = c.id ∧ u.parent = some id := by
        intro c hcmem
        have hc2 : c ∈ tlA.tasks := List.mem_of_mem_filter hcmem
        have hcf : isChildOf id c = true := List.of_mem_filter hcmem
        have hcp : c.parent = some id := by
          unfold isChildOf at hcf
          cases hq : c.parent with
          | none =>
            rw [hq] at hcf
            exact absurd hcf (by simp)
          | some x =>
            rw [hq] at hcf
            have hx : x = id := by simpa using hcf
            rw [hx]
        obtain ⟨u, hu, huid, hup⟩ := mem_transfer tlA.tasks tl0.tasks hskA.symm c hc2
        exact ⟨u, hu, huid, by rw [hup, hcp]⟩
      obtain ⟨tlD, hDrun, hDag, hDout⟩ :=
        fitChildrenGo_frame tl0 hnd hres id
          (fun tl2 id2 => fit_task_size_to_children fuel tl2 id2)
          (fun tlX cid r hx => fit_skel fuel tlX cid r.1 r.2.1 r.2.2 (by
            cases r with
            | mk a b => cases b with
              | mk b1 b2 => exact hx))
          (fun tlX tlY cid tlX1 s2 e2 hx hy hagx hrunx =>
            ih tlX tlY cid tlX1 s2 e2 hx hy hagx hrunx)
          (get_all_children_of_task tlA id) tlA tlB none none tlC s e
          hskA hskB hcs hag hcall
      have hskC : tl0.tasks.map skel = tlC.tasks.map skel := by
        rw [hskA, ← fitChildrenGo_skel _
          (fun tlX cid tlX1 s2 e2 hx => fit_skel fuel tlX cid tlX1 s2 e2 hx)
          (get_all_children_of_task tlA id) tlA none none tlC s e hcall]
      have hskD : tl0.tasks.map skel = tlD.tasks.map skel := by
        rw [hskB, ← fitChildrenGo_skel _
          (fun tlX cid tlX1 s2 e2 hx => fit_skel fuel tlX cid tlX1 s2 e2 hx)
          (get_all_children_of_task tlA id) tlB none none tlD s e hDrun]
      refine ⟨writeDates tlD id s e, ?_, ?_, ?_⟩
      · rw [fit_succ, ← hcseq]
        have hDrun2 : fitChildren fuel tlB (get_all_children_of_task tlA id) none none =
            some (tlD, s, e) := hDrun
        rw [hDrun2]
      · intro j hr
        by_cases hj : j < tl0.tasks.length
        · have hbase : tlD.tasks.getD j dTask = tlC.tasks.getD j dTask := hDag j hr
          by_cases hidm : (tlC.tasks.getD j dTask).id = id
          · have hjC : j < tlC.tasks.length := by
              rw [← skel_length tl0.tasks tlC.tasks hskC]
              exact hj
            have hjD : j < tlD.tasks.length := by
              rw [← skel_length tl0.tasks tlD.tasks hskD]
              exact hj
            rw [writeDates_getD_eq tlC id s e j hjC hidm,
              writeDates_getD_eq tlD id s e j hjD (by rw [hbase]; exact hidm)]
            rw [hbase]
          · rw [writeDates_getD_ne tlC id s e j hidm,
              writeDates_getD_ne tlD id s e j (by rw [hbase]; exact hidm)]
            exact hbase
        · rw [skel_getD_eq_default tl0.tasks _ (by rw [writeDates_skel]; exact hskD) j
            (by omega),
            skel_getD_eq_default tl0.tasks _ (by rw [writeDates_skel]; exact hskC) j
            (by omega)]
      · intro j hnr
        by_cases hj : j < tl0.tasks.length
        · have hne : (tlD.tasks.getD j dTask).id ≠ id := by
            intro hq
            apply hnr
            left
            rw [skel_getD_id tl0.tasks tlD.tasks hskD j]
            exact hq
          rw [writeDates_getD_ne tlD id s e j hne]
          exact hDout j hnr
        · rw [skel_getD_eq_default tl0.tasks _ (by rw [writeDates_skel]; exact hskD) j
            (by omega),
            skel_getD_eq_default tl0.tasks tlB.tasks hskB j (by omega)]

/-- The propagator writes only inside the region of the fitted id. -/
theorem fit_writes_region (tl0 : TaskList) (hnd : NodupIds tl0) (hres : AllResolvable tl0)
    (fuel : Nat) (tlX : TaskList) (cid : Nat) (tlX1 : TaskList) (s e : Option Int)
    (hsk : tl0.tasks.map skel = tlX.tasks.map skel)
    (h : fit_task_size_to_children fuel tlX cid = some (tlX1, s, e)) :
    ∀ j, ¬ Region tl0 cid (tl0.tasks.getD j dTask) →
      tlX1.tasks.getD j dTask = tlX.tasks.getD j dTask := by
  obtain ⟨tlY1, hrun, _, hout⟩ :=
    fit_frame tl0 hnd hres fuel tlX tlX cid tlX1 s e hsk hsk (fun j _ => rfl) h
  have he : tlY1 = tlX1 := by
    rw [h] at hrun
    have h2 := Option.some.inj hrun
    exact (congrArg Prod.fst h2).symm
  rw [← he]
  exact hout

theorem tasklist_ext (tlX tlY : TaskList) (h : tlX.tasks = tlY.tasks) : tlX = tlY := by
  cases tlX
  cases tlY
  simpa using h

/-- The child loop writes only inside regions of children whose (base-list)
child test is positive. -/
theorem fitChildrenGo_writes (tl0 : TaskList) (hnd : NodupIds tl0)
    (hres : AllResolvable tl0) (fuel : Nat) :
    ∀ (cs : List Task) (tlA : TaskList) (st en : Option Int) (tlA1 : TaskList)
      (s e : Option Int),
      tl0.tasks.map skel = tlA.tasks.map skel →
      fitChildrenGo (fun tl2 id2 => fit_task_size_to_children fuel tl2 id2) tlA cs st en
        = some (tlA1, s, e) →
      ∀ j, (∀ c ∈ cs, task_has_children tl0 c.id = true →
          ¬ Region tl0 c.id (tl0.tasks.getD j dTask)) →
        tlA1.tasks.getD j dTask = tlA.tasks.getD j dTask := by
  intro cs
  induction cs with
  | nil =>
    intro tlA st en tlA1 s e _ hrun j _
    unfold fitChildrenGo at hrun
    cases hrun
    rfl
  | cons c rest ih =>
    intro tlA st en tlA1 s e hskA hrun j hreg
    have hskA1 : tl0.tasks.map skel = tlA1.tasks.map skel := by
      rw [hskA, ← fitChildrenGo_skel _
        (fun tlX cid tlX1 s2 e2 hx => fit_skel fuel tlX cid tlX1 s2 e2 hx)
        (c :: rest) tlA st en tlA1 s e hrun]
    by_cases hj : j < tl0.tasks.length
    · unfold fitChildrenGo at hrun
      cases hfl : task_has_children tlA c.id with
      | false =>
        rw [hfl] at hrun
        simp only [Bool.false_eq_true, if_false] at hrun
        exact ih tlA _ _ tlA1 s e hskA hrun j (fun d hd => hreg d (by simp [hd]))
      | true =>
        rw [hfl] at hrun
        simp only [if_true] at hrun
        cases hcall : fit_task_size_to_children fuel tlA c.id with
        | none =>
          rw [hcall] at hrun
          exact absurd hrun (by simp)
        | some rr =>
          obtain ⟨tlr, sc, ec⟩ := rr
          rw [hcall] at hrun
          have hfl0 : task_has_children tl0 c.id = true := by
            rw [task_has_children_skel tl0 tlA c.id hskA]
            exact hfl
          have hnoreg : ¬ Region tl0 c.id (tl0.tasks.getD j dTask) :=
            hreg c (by simp) hfl0
          have h1 : tlr.tasks.getD j dTask = tlA.tasks.getD j dTask :=
            fit_writes_region tl0 hnd hres fuel tlA c.id tlr sc ec hskA hcall j hnoreg
          have hskr : tl0.tasks.map skel = tlr.tasks.map skel := by
            rw [hskA, ← fit_skel fuel tlA c.id tlr sc ec hcall]
          have hne : (tlr.tasks.getD j dTask).id ≠ c.id := by
            intro hq
            apply hnoreg
            left
            rw [skel_getD_id tl0.tasks tlr.tasks hskr j]
            exact hq
          have h2 := ih (writeDates tlr c.id sc ec) _ _ tlA1 s e
            (by rw [writeDates_skel]; exact hskr) hrun j
            (fun d hd => hreg d (by simp [hd]))
          rw [h2, writeDates_getD_ne tlr c.id sc ec j hne, h1]
    · rw [skel_getD_eq_default tl0.tasks tlA1.tasks hskA1 j (by omega),
        skel_getD_eq_default tl0.tasks tlA.tasks hskA j (by omega)]

theorem region_dTask (tl : TaskList) (cid : Nat) (h : Region tl cid dTask) : cid = 0 := by
  rcases h with h | h
  · exact h.symm
  · cases h with
    | step hp => exact absurd hp (by simp [dTask])
    | trans hp _ _ _ => exact absurd hp (by simp [dTask])

/-- Second-run stability of the child loop: re-running it on the final full
result list (with the refreshed child snapshot) leaves the list fixed and
returns the same accumulators. -/
theorem fitChildrenGo_idem (tl : TaskList) (hnd : NodupIds tl) (hres : AllResolvable tl)
    (id : Nat) (fuel : Nat)
    (hOI : ∀ (tlX : TaskList) (cid : Nat) (tlX1 : TaskList) (s e : Option Int),
      tl.tasks.map skel = tlX.tasks.map skel →
      fit_task_size_to_children fuel tlX cid = some (tlX1, s, e) →
      fit_task_size_to_children fuel tlX1 cid = some (tlX1, s, e)) :
    ∀ (cs csB : List Task) (tlA TLB : TaskList) (st en : Option Int) (tlA1 : TaskList)
      (s e : Option Int),
      tl.tasks.map skel = tlA.tasks.map skel →
      tl.tasks.map skel = TLB.tasks.map skel →
      (∀ c ∈ cs, ∃ u ∈ tl.tasks, u.id = c.id ∧ u.parent = some id) →
      (cs.map (fun c => c.id)).Nodup →
      csB.length = cs.length →
      (∀ k, (csB.getD k dTask).id = (cs.getD k dTask).id) →
      (∀ k, task_has_children tl (cs.getD k dTask).id = false →
        csB.getD k dTask = cs.getD k dTask) →
      fitChildrenGo (fun tl2 id2 => fit_task_size_to_children fuel tl2 id2) tlA cs st en
        = some (tlA1, s, e) →
      (∀ j, (∃ c ∈ cs, task_has_children tl c.id = true ∧
          Region tl c.id (tl.tasks.getD j dTask)) →
        TLB.tasks.getD j dTask = tlA1.tasks.getD j dTask) →
      fitChildrenGo (fun tl2 id2 => fit_task_size_to_children fuel tl2 id2) TLB csB st en
        = some (TLB, s, e) := by
  intro cs
  induction cs with
  | nil =>
    intro csB tlA TLB st en tlA1 s e _ _ _ _ hlen _ _ hrun _
    have hcsb : csB = [] := List.length_eq_zero.mp (by simpa using hlen)
    subst hcsb
    unfold fitChildrenGo at hrun ⊢
    cases hrun
    rfl
  | cons c rest ih =>
    intro csB tlA TLB st en tlA1 s e hskA hskB hcs hndcs hlen hid hfalse hrun hagree
    cases csB with
    | nil => simp at hlen
    | cons c2 restB =>
      have hid0 : c2.id = c.id := by
        have h0 := hid 0
        simpa using h0
      obtain ⟨uc, huc, hucid, hucp⟩ := hcs c (by simp)
      have hskAB : tlA.tasks.map skel = TLB.tasks.map skel := by
        rw [← hskA]
        exact hskB
      have hndtail : (∀ x ∈ rest, ¬x.id = c.id) ∧
          (List.map (fun c => c.id) rest).Nodup := by
        simpa using hndcs
      unfold fitChildrenGo at hrun ⊢
      rw [hid0, ← task_has_children_skel tlA TLB c.id hskAB]
      cases hfl : task_has_children tlA c.id with
      | false =>
        rw [hfl] at hrun
        simp only [Bool.false_eq_true, if_false] at hrun ⊢
        have hfl0 : task_has_children tl c.id = false := by
          rw [task_has_children_skel tl tlA c.id hskA]
          exact hfl
        have hc2 : c2 = c := by
          have h0 := hfalse 0 (by simpa using hfl0)
          simpa using h0
        rw [hc2]
        exact ih restB tlA TLB _ _ tlA1 s e hskA hskB
          (fun d hd => hcs d (by simp [hd]))
          (hndtail.2)
          (by simpa using hlen)
          (fun k => by simpa [List.getD_cons_succ] using hid (k + 1))
          (fun k hk => by
            have h2 := hfalse (k + 1) (by simpa [List.getD_cons_succ] using hk)
            simpa [List.getD_cons_succ] using h2)
          hrun
          (fun j hj => by
            obtain ⟨d, hd, hdfl, hdr⟩ := hj
            exact hagree j ⟨d, by simp [hd], hdfl, hdr⟩)
      | true =>
        rw [hfl] at hrun
        simp only [if_true] at hrun ⊢
        cases hcall : fit_task_size_to_children fuel tlA c.id with
        | none =>
          rw [hcall] at hrun
          exact absurd hrun (by simp)
        | some rr =>
          obtain ⟨tlr, sc, ec⟩ := rr
          rw [hcall] at hrun
          have hselfw : writeDates tlr c.id sc ec = tlr :=
            fit_self_write fuel tlA c.id tlr sc ec hcall
          have hrun2 : fitChildrenGo (fun tl2 id2 => fit_task_size_to_children fuel tl2 id2)
              tlr rest (combineMin st sc) (combineMax en ec) = some (tlA1, s, e) := by
            rw [← hselfw]
            exact hrun
          have hskr : tl.tasks.map skel = tlr.tasks.map skel := by
            rw [hskA, ← fit_skel fuel tlA c.id tlr sc ec hcall]
          have hfl0 : task_has_children tl c.id = true := by
            rw [task_has_children_skel tl tlA c.id hskA]
            exact hfl
          have htail_frame : ∀ j, Region tl c.id (tl.tasks.getD j dTask) →
              tlA1.tasks.getD j dTask = tlr.tasks.getD j dTask := by
            intro j hr
            apply fitChildrenGo_writes tl hnd hres fuel rest tlr _ _ tlA1 s e hskr hrun2 j
            intro d hd hdfl hrd
            obtain ⟨ud, hud, hudid, hudp⟩ := hcs d (by simp [hd])
            have hne : uc.id ≠ ud.id := by
              rw [hucid, hudid]
              intro hq
              exact hndtail.1 d hd hq.symm
            by_cases hj : j < tl.tasks.length
            · exact region_disjoint tl hnd hres id huc hud hucp hudp hne
                (getD_mem_task tl.tasks j hj) (hucid ▸ hr) (hudid ▸ hrd)
            · rw [List.getD_eq_default _ _ (by omega)] at hr hrd
              apply hne
              rw [hucid, hudid, region_dTask tl c.id hr, region_dTask tl d.id hrd]
          have hfix_r : fit_task_size_to_children fuel tlr c.id = some (tlr, sc, ec) :=
            hOI tlA c.id tlr sc ec hskA hcall
          have hagc : ∀ j, Region tl c.id (tl.tasks.getD j dTask) →
              TLB.tasks.getD j dTask = tlr.tasks.getD j dTask := by
            intro j hr
            rw [hagree j ⟨c, by simp, hfl0, hr⟩, htail_frame j hr]
          obtain ⟨TLB1, hBrun, hBag, hBout⟩ :=
            fit_frame tl hnd hres fuel tlr TLB c.id tlr sc ec hskr hskB hagc hfix_r
          have hskB1 : tl.tasks.map skel = TLB1.tasks.map skel := by
            rw [hskB, ← fit_skel fuel TLB c.id TLB1 sc ec hBrun]
          have hTLB1 : TLB1 = TLB := by
            apply tasklist_ext
            apply list_ext_getD _ _ ?_ ?_
            · rw [← skel_length tl.tasks TLB1.tasks hskB1,
                skel_length tl.tasks TLB.tasks hskB]
            · intro j
              by_cases hr : Region tl c.id (tl.tasks.getD j dTask)
              · rw [hBag j hr, ← htail_frame j hr, hagree j ⟨c, by simp, hfl0, hr⟩]
              · exact hBout j hr
          rw [hTLB1] at hBrun
          have hwb : writeDates TLB c.id sc ec = TLB := by
            apply writeDates_id_of_values
            intro t ht htid
            obtain ⟨j, hj, hje⟩ := List.getElem_of_mem ht
            have hjlen : j < tl.tasks.length := by
              rw [skel_length tl.tasks TLB.tasks hskB]
              exact hj
            have htD : TLB.tasks.getD j dTask = t := by
              rw [List.getD_eq_getElem _ _ hj]
              exact hje
            have hreg : Region tl c.id (tl.tasks.getD j dTask) := by
              left
              rw [skel_getD_id tl.tasks TLB.tasks hskB j, htD, htid]
            have hTr : TLB.tasks.getD j dTask = tlr.tasks.getD j dTask := hagc j hreg
            have htr : t = tlr.tasks.getD j dTask := by
              rw [← htD, hTr]
            have hmem : tlr.tasks.getD j dTask ∈ tlr.tasks := by
              apply getD_mem_task
              rw [← skel_length tl.tasks tlr.tasks hskr]
              exact hjlen
            have hdates := fit_writes_own fuel tlA c.id tlr sc ec hcall _ hmem
              (by rw [← htr]; exact htid)
            rw [htr]
            exact hdates
          have hrec := ih restB tlr TLB _ _ tlA1 s e hskr hskB
            (fun d hd => hcs d (by simp [hd]))
            (hndtail.2)
            (by simpa using hlen)
            (fun k => by simpa [List.getD_cons_succ] using hid (k + 1))
            (fun k hk => by
              have h2 := hfalse (k + 1) (by simpa [List.getD_cons_succ] using hk)
              simpa [List.getD_cons_succ] using h2)
            hrun2
            (fun j hj => by
              obtain ⟨d, hd, hdfl, hdr⟩ := hj
              exact hagree j ⟨d, by simp [hd], hdfl, hdr⟩)
          rw [hBrun]
          show fitChildrenGo (fun tl2 id2 => fit_task_size_to_children fuel tl2 id2)
            (writeDates TLB c.id sc ec) restB (combineMin st sc) (combineMax en ec)
            = some (TLB, s, e)
          rw [hwb]
          exact hrec

/-- Filtering two skeleton-equal lists by a skeleton-invariant predicate
yields skeleton-equal lists. -/
theorem filter_skel (p : Task → Bool) (hp : ∀ u v : Task, skel u = skel v → p u = p v) :
    ∀ (l1 l2 : List Task), l1.map skel = l2.map skel →
    (l1.filter p).map skel = (l2.filter p).map skel := by
  intro l1
  induction l1 with
  | nil =>
    intro l2 h
    cases l2 with
    | nil => rfl
    | cons v vs => simp at h
  | cons u us ih =>
    intro l2 h
    cases l2 with
    | nil => simp at h
    | cons v vs =>
      simp only [List.map_cons, List.cons.injEq] at h
      have hpv : p v = p u := hp v u h.1.symm
      cases hc : p u with
      | false =>
        have e1 : (u :: us).filter p = us.filter p := by
          simp [List.filter_cons, hc]
        have e2 : (v :: vs).filter p = vs.filter p := by
          simp [List.filter_cons, hpv, hc]
        rw [e1, e2]
        exact ih vs h.2
      | true =>
        have e1 : (u :: us).filter p = u :: us.filter p := by
          simp [List.filter_cons, hc]
        have e2 : (v :: vs).filter p = v :: vs.filter p := by
          simp [List.filter_cons, hpv, hc]
        rw [e1, e2, List.map_cons, List.map_cons, h.1, ih vs h.2]

/-- Positional agreement transfers through a skeleton-invariant filter:
if the second list agrees with the first at every selected position whose
id fails the test Q, then the filtered lists agree at every entry whose id
fails Q. -/
theorem filter_agree (p : Task → Bool) (hp : ∀ u v : Task, skel u = skel v → p u = p v)
    (Q : Nat → Bool) :
    ∀ (l1 l2 : List Task), l1.map skel = l2.map skel →
    (∀ j, p (l1.getD j dTask) = true → Q (l1.getD j dTask).id = false →
        l2.getD j dTask = l1.getD j dTask) →
    ∀ k, Q ((l1.filter p).getD k dTask).id = false →
      (l2.filter p).getD k dTask = (l1.filter p).getD k dTask := by
  intro l1
  induction l1 with
  | nil =>
    intro l2 h _ k _
    cases l2 with
    | nil => rfl
    | cons v vs => simp at h
  | cons u us ih =>
    intro l2 h hag k hQ
    cases l2 with
    | nil => simp at h
    | cons v vs =>
      simp only [List.map_cons, List.cons.injEq] at h
      have hpv : p v = p u := hp v u h.1.symm
      have hagt : ∀ j, p (us.getD j dTask) = true → Q (us.getD j dTask).id = false →
          vs.getD j dTask = us.getD j dTask := by
        intro j h1 h2
        have h3 := hag (j + 1) (by simpa [List.getD_cons_succ] using h1)
          (by simpa [List.getD_cons_succ] using h2)
        simpa [List.getD_cons_succ] using h3
      cases hc : p u with
      | false =>
        have e1 : (u :: us).filter p = us.filter p := by
          simp [List.filter_cons, hc]
        have e2 : (v :: vs).filter p = vs.filter p := by
          simp [List.filter_cons, hpv, hc]
        rw [e1] at hQ
        rw [e1, e2]
        exact ih vs h.2 hagt k hQ
      | true =>
        have e1 : (u :: us).filter p = u :: us.filter p := by
          simp [List.filter_cons, hc]
        have e2 : (v :: vs).filter p = v :: vs.filter p := by
          simp [List.filter_cons, hpv, hc]
        rw [e1] at hQ
        rw [e1, e2]
        cases k with
        | zero =>
          simp only [List.getD_cons_zero] at hQ ⊢
          exact hag 0 (by simpa using hc) (by simpa using hQ)
        | succ k =>
          simp only [List.getD_cons_succ] at hQ ⊢
          exact ih vs h.2 hagt k hQ

/-- The child test reads only the parent field, which the skeleton keeps. -/
theorem isChildOf_skel (id : Nat) (u v : Task) (h : skel u = skel v) :
    isChildOf id u = isChildOf id v := by
  apply isChildOf_congr
  have h2 := congrArg Task.parent h
  simpa [skel_parent] using h2

/-- Idempotence of the propagator at every fuel, over any list sharing the
skeleton of a base collection with distinct ids and a fully resolvable
parent relation: re-running it on its own output list returns that list
unchanged together with the same folded dates. -/
theorem fit_idem_aux (tl : TaskList) (hnd : NodupIds tl) (hres : AllResolvable tl) :
    ∀ (fuel : Nat) (tlX : TaskList) (cid : Nat) (tlX1 : TaskList) (s e : Option Int),
      tl.tasks.map skel = tlX.tasks.map skel →
      fit_task_size_to_children fuel tlX cid = some (tlX1, s, e) →
      fit_task_size_to_children fuel tlX1 cid = some (tlX1, s, e) := by
  intro fuel
  induction fuel with
  | zero =>
    intro tlX cid tlX1 s e _ hrun
    exact absurd hrun (by simp [fit_task_size_to_children])
  | succ fuel ih =>
    intro tlX cid tlX1 s e hsk hrun
    rw [fit_succ] at hrun
    cases hcall : fitChildren fuel tlX (get_all_children_of_task tlX cid) none none with
    | none =>
      rw [hcall] at hrun
      exact absurd hrun (by simp)
    | some r =>
      obtain ⟨tlC, st, en⟩ := r
      rw [hcall] at hrun
      cases hrun
      have hcallG : fitChildrenGo (fun tl2 id2 => fit_task_size_to_children fuel tl2 id2)
          tlX (get_all_children_of_task tlX cid) none none = some (tlC, s, e) := hcall
      have hskC : tl.tasks.map skel = tlC.tasks.map skel := by
        rw [hsk, ← fitChildrenGo_skel _
          (fun tlY cidY tlY1 s2 e2 hx => fit_skel fuel tlY cidY tlY1 s2 e2 hx)
          _ tlX none none tlC s e hcallG]
      have hskX1 : tl.tasks.map skel = (writeDates tlC cid s e).tasks.map skel := by
        rw [writeDates_skel]
        exact hskC
      have hskXX1 : tlX.tasks.map skel = (writeDates tlC cid s e).tasks.map skel := by
        rw [← hsk]
        exact hskX1
      have hcs : ∀ c ∈ get_all_children_of_task tlX cid,
          ∃ u ∈ tl.tasks, u.id = c.id ∧ u.parent = some cid := by
        intro c hc
        unfold get_all_children_of_task at hc
        have hcm := List.mem_of_mem_filter hc
        have hcp := List.of_mem_filter hc
        obtain ⟨u, hu, huid, hup⟩ := mem_transfer tlX.tasks tl.tasks hsk.symm c hcm
        refine ⟨u, hu, huid, ?_⟩
        rw [hup]
        unfold isChildOf at hcp
        cases hcpar : c.parent with
        | none =>
          rw [hcpar] at hcp
          exact absurd hcp (by simp)
        | some x =>
          rw [hcpar] at hcp
          have hx : x = cid := by simpa using hcp
          rw [hx]
      have hndX : NodupIds tlX := nodup_skel tl tlX hsk hnd
      have hndcs : ((get_all_children_of_task tlX cid).map (fun c => c.id)).Nodup := by
        unfold get_all_children_of_task
        exact List.Nodup.sublist ((List.filter_sublist _).map _) hndX
      have hskcs : (get_all_children_of_task tlX cid).map skel
          = (get_all_children_of_task (writeDates tlC cid s e) cid).map skel := by
        unfold get_all_children_of_task
        exact filter_skel (isChildOf cid) (isChildOf_skel cid) tlX.tasks _ hskXX1
      have hlen : (get_all_children_of_task (writeDates tlC cid s e) cid).length
          = (get_all_children_of_task tlX cid).length :=
        (skel_length _ _ hskcs).symm
      have hid2 : ∀ k,
          ((get_all_children_of_task (writeDates tlC cid s e) cid).getD k dTask).id
          = ((get_all_children_of_task tlX cid).getD k dTask).id :=
        fun k => (skel_getD_id _ _ hskcs k).symm
      have hag : ∀ j, isChildOf cid (tlX.tasks.getD j dTask) = true →
          task_has_children tl (tlX.tasks.getD j dTask).id = false →
          (writeDates tlC cid s e).tasks.getD j dTask = tlX.tasks.getD j dTask := by
        intro j hchild hflag
        have hjlt : j < tl.tasks.length := by
          by_contra hj
          have hd : tlX.tasks.getD j dTask = dTask :=
            skel_getD_eq_default tl.tasks tlX.tasks hsk j (by omega)
          rw [hd] at hchild
          simp [isChildOf, dTask] at hchild
        have hpar : (tl.tasks.getD j dTask).parent = some cid := by
          rw [skel_getD_parent tl.tasks tlX.tasks hsk j]
          unfold isChildOf at hchild
          cases hcp : (tlX.tasks.getD j dTask).parent with
          | none =>
            rw [hcp] at hchild
            exact absurd hchild (by simp)
          | some x =>
            rw [hcp] at hchild
            have hx : x = cid := by simpa using hchild
            rw [hx]
        have hflag2 : task_has_children tl (tl.tasks.getD j dTask).id = false := by
          rw [skel_getD_id tl.tasks tlX.tasks hsk j]
          exact hflag
        have hidne : (tl.tasks.getD j dTask).id ≠ cid := by
          intro hq
          apply no_self_parent tl hnd hres _ (getD_mem_task tl.tasks j hjlt)
          rw [hpar, hq]
        have hC : tlC.tasks.getD j dTask = tlX.tasks.getD j dTask := by
          apply fitChildrenGo_writes tl hnd hres fuel _ tlX none none tlC s e hsk
            hcallG j
          intro d hd hdfl hreg
          obtain ⟨ud, hud, hudid, hudp⟩ := hcs d hd
          rcases hreg with hreg | hreg
          · rw [hreg] at hflag2
            rw [hflag2] at hdfl
            exact Bool.noConfusion hdfl
          · have hne : ud.id ≠ (tl.tasks.getD j dTask).id := by
              intro hq
              rw [hudid] at hq
              rw [← hq] at hflag2
              rw [hflag2] at hdfl
              exact Bool.noConfusion hdfl
            exact region_disjoint tl hnd hres cid hud
              (getD_mem_task tl.tasks j hjlt) hudp hpar hne
              (getD_mem_task tl.tasks j hjlt)
              (Or.inr (by rw [hudid]; exact hreg)) (Or.inl rfl)
        have hne2 : (tlC.tasks.getD j dTask).id ≠ cid := by
          rw [← skel_getD_id tl.tasks tlC.tasks hskC j]
          exact hidne
        rw [writeDates_getD_ne tlC cid s e j hne2, hC]
      have hfalse : ∀ k, task_has_children tl
            (((get_all_children_of_task tlX cid).getD k dTask).id) = false →
          (get_all_children_of_task (writeDates tlC cid s e) cid).getD k dTask
            = (get_all_children_of_task tlX cid).getD k dTask := by
        intro k hk
        unfold get_all_children_of_task at hk ⊢
        exact filter_agree (isChildOf cid) (isChildOf_skel cid)
          (fun n => task_has_children tl n) tlX.tasks _ hskXX1 hag k hk
      have hagree : ∀ j, (∃ c ∈ get_all_children_of_task tlX cid,
            task_has_children tl c.id = true ∧
            Region tl c.id (tl.tasks.getD j dTask)) →
          (writeDates tlC cid s e).tasks.getD j dTask = tlC.tasks.getD j dTask := by
        intro j hj
        obtain ⟨c, hc, _, hreg⟩ := hj
        obtain ⟨uc, huc, hucid, hucp⟩ := hcs c hc
        by_cases hjlt : j < tl.tasks.length
        · have hne : (tlC.tasks.getD j dTask).id ≠ cid := by
            rw [← skel_getD_id tl.tasks tlC.tasks hskC j]
            intro hq
            exact region_not_top tl hnd hres cid huc hucp
              (getD_mem_task tl.tasks j hjlt) hq (by rw [hucid]; exact hreg)
          exact writeDates_getD_ne tlC cid s e j hne
        · rw [skel_getD_eq_default tl.tasks (writeDates tlC cid s e).tasks hskX1 j
            (by omega), skel_getD_eq_default tl.tasks tlC.tasks hskC j (by omega)]
      have hmain := fitChildrenGo_idem tl hnd hres cid fuel ih
        (get_all_children_of_task tlX cid)
        (get_all_children_of_task (writeDates tlC cid s e) cid)
        tlX (writeDates tlC cid s e) none none tlC s e
        hsk hskX1 hcs hndcs hlen hid2 hfalse hcallG hagree
      rw [fit_succ]
      have hmain2 : fitChildren fuel (writeDates tlC cid s e)
          (get_all_children_of_task (writeDates tlC cid s e) cid) none none
          = some (writeDates tlC cid s e, s, e) := hmain
      rw [hmain2]
      show some (writeDates (writeDates tlC cid s e) cid s e, s, e)
        = some (writeDates tlC cid s e, s, e)
      rw [writeDates_id_of_values (writeDates tlC cid s e) cid s e
        (writeDates_in_values tlC cid s e)]

/-- C9: interval propagation is idempotent.  For every collection with
distinct ids and an acyclic, fully resolvable parent relation (the spec
precondition, stated through the decidable bounded-resolvability test) and
every id, if fit_task_size_to_children returns a collection together with
its folded dates, then running it again on that returned collection gives
back the very same collection and the same folded dates — so every task,
ancestors included, keeps the start_time and due_date of the first run. -/
theorem fit_idempotent_C9 (tl : TaskList) (hnd : NodupIds tl) (hres : AllResolvable tl)
    (fuel : Nat) (id : Nat) (tl1 : TaskList) (s e : Option Int)
    (h : fit_task_size_to_children fuel tl id = some (tl1, s, e)) :
    fit_task_size_to_children fuel tl1 id = some (tl1, s, e) :=
  fit_idem_aux tl hnd hres fuel tl id tl1 s e rfl h

/-- Witness for C9 on the two-task store exW6: the first run from root 0
produces exW6r, and the theorem applied there shows the second run returns
exW6r with the same dates. -/
theorem fit_idempotent_C9_witness :
    NodupIds exW6 ∧ AllResolvable exW6 ∧
      fit_task_size_to_children 3 exW6 0 = some (exW6r, some 2, some 3) ∧
      fit_task_size_to_children 3 exW6r 0 = some (exW6r, some 2, some 3) :=
  ⟨by decide, by decide, by decide,
    fit_idempotent_C9 exW6 (by decide) (by decide) 3 0 exW6r (some 2) (some 3)
      (by decide)⟩


end Planner
